import Mathlib

/-!
Verification development for the incremental job-graph evaluator of
pypipegraph2 (Rust crate: src/lib.rs, src/tests.rs, engine behind
src/engine.rs).

The crate exposes a `PPGEvaluator` (module `engine`, declared in
src/lib.rs) driven through an event API; src/lib.rs further provides the
deterministic test driver `TestGraphRunner` and the two strategy
implementations (`StrategyForTesting`, `StrategyForPython`).  The
`engine` module itself is not part of the sources at hand, so the
evaluator core below is modelled from the specification (job kinds,
history keys, the decision predicate of section 4.2, ephemeral gating,
and the event API of section 4.3); `TestGraphRunner` and the strategies
are translated directly from src/lib.rs.
-/

namespace PPG2

/-- JobKind: the closed set of job kinds (src/lib.rs uses
`engine::JobKind`; spec section 3). -/
inductive JobKind where
  | Output
  | Ephemeral
  | Always
deriving DecidableEq, Repr

/-- JobState: per-job state of the evaluator state machine (spec section
4.2).  `ReadyToRun` and `Running` carry the flag recording whether the
job was scheduled because it was itself invalidated (`true`) or - for
ephemerals - merely retriggered by downstream demand (`false`); the flag
feeds the ephemeral constant-output contract. -/
inductive JobState where
  | Undetermined
  | Blocked
  | ReadyToRun (invalidated : Bool)
  | Running (invalidated : Bool)
  | Succeeded
  | NotNeeded
  | Failed
  | UpstreamFailed
deriving DecidableEq, Repr

/-- HKey: a history key; either a node key (job id) or an edge key.  The
spec (section 6) allows a structural representation as long as the
serialised form is `upstream!!!downstream`; we keep the structural form
and never serialise. -/
inductive HKey where
  | node (id : String)
  | edge (up down : String)
deriving DecidableEq, Repr

/-- History: the flat map from history keys to opaque string values,
kept as an association list without duplicate keys. -/
abbrev History := List (HKey × String)

/-- hGet: look a key up in a history map. -/
def hGet : History → HKey → Option String
  | [], _ => none
  | (k, v) :: t, q => if k = q then some v else hGet t q

/-- hSet: overwrite or append a binding in a history map. -/
def hSet : History → HKey → String → History
  | [], q, v => [(q, v)]
  | (k, w) :: t, q, v => if k = q then (q, v) :: t else (k, w) :: hSet t q v

/-- hEraseEdgesTo: remove every edge key whose downstream is `j`.  Used
when `j` reports success: its set of edge keys is replaced wholesale by
the current upstream snapshot. -/
def hEraseEdgesTo : History → String → History
  | [], _ => []
  | (k, v) :: t, j =>
    match k with
    | HKey.edge _ d =>
      if d = j then hEraseEdgesTo t j else (k, v) :: hEraseEdgesTo t j
    | HKey.node _ => (k, v) :: hEraseEdgesTo t j

/-- Graph: registered jobs (id and kind, in registration order) and
directed edges `(upstream, downstream)` (spec section 4.1). -/
structure Graph where
  jobs : List (String × JobKind)
  edges : List (String × String)
deriving DecidableEq, Repr

/-- kindOf: the kind registered for a job id, if any. -/
def kindOf (g : Graph) (j : String) : Option JobKind :=
  (g.jobs.find? fun p => p.1 = j).map (·.2)

/-- upstreamsOf: ids this job depends on. -/
def upstreamsOf (g : Graph) (j : String) : List String :=
  (g.edges.filter fun e => e.2 = j).map (·.1)

/-- downstreamsOf: ids that depend on this job. -/
def downstreamsOf (g : Graph) (j : String) : List String :=
  (g.edges.filter fun e => e.1 = j).map (·.2)

/-- Strategy: the two caller-provided predicates (spec section 6,
`PPGEvaluatorStrategy` in src/lib.rs). -/
structure Strategy where
  outputAlreadyPresent : String → Bool
  isHistoryAltered : String → String → String → String → Bool

/-- Evaluator: the evaluator state: graph, strategy, the evolving
history map, the per-job states, and the startup latch.  Models
`PPGEvaluator` (spec sections 3-4). -/
structure Evaluator where
  graph : Graph
  strat : Strategy
  history : History
  states : String → JobState
  started : Bool

/-- PPGEvaluatorError: the error enum of src/lib.rs (lines 28-34). -/
inductive PPGEvaluatorError where
  | APIError (msg : String)
  | EphemeralChangedOutput
deriving DecidableEq, Repr

/-- isTerminal: Succeeded, NotNeeded, Failed and UpstreamFailed are the
terminal states (spec section 4.2). -/
def isTerminal : JobState → Bool
  | JobState.Succeeded => true
  | JobState.NotNeeded => true
  | JobState.Failed => true
  | JobState.UpstreamFailed => true
  | _ => false

/-- isTerminalOk: the two non-failure terminal states. -/
def isTerminalOk : JobState → Bool
  | JobState.Succeeded => true
  | JobState.NotNeeded => true
  | _ => false

/-- isFailedState: Failed or UpstreamFailed. -/
def isFailedState : JobState → Bool
  | JobState.Failed => true
  | JobState.UpstreamFailed => true
  | _ => false

/-- isUndecided: states in which the decision predicate may still be
applied to the job. -/
def isUndecided : JobState → Bool
  | JobState.Undetermined => true
  | JobState.Blocked => true
  | _ => false

/-- prevOf: the value of upstream `u` as last observed by `j` (edge key
lookup); spec section 4.2 rule 4. -/
def prevOf (ev : Evaluator) (u j : String) : Option String :=
  hGet ev.history (HKey.edge u j)

/-- currOf: the current recorded node value of a job. -/
def currOf (ev : Evaluator) (u : String) : Option String :=
  hGet ev.history (HKey.node u)

/-- newInputB: rule 4, first half - some current upstream has no
recorded edge value for this downstream (a new edge or new node always
forces a run; see test_adding_ephemeral_triggers_rebuild, where the new
upstream is an ephemeral whose value is not yet known). -/
def newInputB (ev : Evaluator) (j : String) : Bool :=
  (upstreamsOf ev.graph j).any fun u => (prevOf ev u j).isNone

/-- shrankB: rule 5 - the history still holds an edge key for this
downstream whose upstream is no longer an upstream in the current graph
(an input disappeared). -/
def shrankB (ev : Evaluator) (j : String) : Bool :=
  ev.history.any fun kv =>
    match kv.1 with
    | HKey.edge u d => d = j && !(upstreamsOf ev.graph j).contains u
    | HKey.node _ => false

/-- upstreamsFailedB: some upstream failed or upstream-failed (rule 2). -/
def upstreamsFailedB (ev : Evaluator) (j : String) : Bool :=
  (upstreamsOf ev.graph j).any fun u => isFailedState (ev.states u)

/-- upstreamsDoneB: every upstream reached a non-failure terminal state,
so the decision predicate for `j` can be finalised. -/
def upstreamsDoneB (ev : Evaluator) (j : String) : Bool :=
  (upstreamsOf ev.graph j).all fun u => isTerminalOk (ev.states u)

/-- outputPresentB: strategy query for Output jobs (rule 3). -/
def outputPresentB (ev : Evaluator) (j : String) : Bool :=
  ev.strat.outputAlreadyPresent j

/-- Tri: three-valued answer for the predictive fixed point that
propagates ephemeral eligibility (spec section 4.2, ephemeral gating):
a fact can already be settled positively, settled negatively, or still
depend on jobs that have not finished. -/
inductive Tri where
  | yes
  | no
  | unknown
deriving DecidableEq, Repr

/-- triAny: three-valued disjunction over a list. -/
def triAny (l : List String) (f : String → Tri) : Tri :=
  if l.any fun x => f x = Tri.yes then Tri.yes
  else if l.any fun x => f x = Tri.unknown then Tri.unknown
  else Tri.no

/-- QK: selector for the three mutually recursive predictive queries,
folded into the single fuelled function `q` below. -/
inductive QK where
  | valueKnown
  | invalid
  | willRun
deriving DecidableEq, Repr

/-- q: the predictive fixed point of the ephemeral-gating computation
(spec section 4.2: eligibility is computed by fixed-point propagation
from output/always leaves backward to ephemeral sources).

 * `q f QK.valueKnown u = yes` - the node value of `u` is guaranteed to
   still be `history[u]` when the run settles: `u` is terminal, or `u`
   is an ephemeral that is not invalidated (if it runs at all it is
   merely retriggered, and the constant-output contract fixes its
   value).
 * `q f QK.invalid j` - does rule 4/5 invalidation fire for `j`?  The
   shrink and new-input checks depend on history only; the
   is-history-altered check needs the upstream value, so it is `unknown`
   while some compared upstream value is not predictable.
 * `q f QK.willRun d` - is `d` eligible to run?  Always jobs and Output
   jobs with a missing artifact are eligible; invalidated jobs are
   eligible (an invalidated ephemeral only if it has a surviving
   downstream that could consume it); a quiet ephemeral is eligible iff
   some downstream is eligible (downstream demand).

Fuel only bounds the recursion; on a DAG every query stabilises once the
fuel exceeds the relevant path lengths. -/
def q (ev : Evaluator) : Nat → QK → String → Tri
  | 0, _, _ => Tri.unknown
  | f + 1, QK.valueKnown, u =>
    match ev.states u with
    | JobState.Succeeded => Tri.yes
    | JobState.NotNeeded => Tri.yes
    | JobState.Failed => Tri.yes
    | JobState.UpstreamFailed => Tri.yes
    | JobState.ReadyToRun b =>
      if kindOf ev.graph u = some JobKind.Ephemeral && !b then Tri.yes else Tri.no
    | JobState.Running b =>
      if kindOf ev.graph u = some JobKind.Ephemeral && !b then Tri.yes else Tri.no
    | _ =>
      if kindOf ev.graph u = some JobKind.Ephemeral && q ev f QK.invalid u = Tri.no
      then Tri.yes else Tri.no
  | f + 1, QK.invalid, j =>
    if shrankB ev j || newInputB ev j then Tri.yes
    else
      triAny (upstreamsOf ev.graph j) fun u =>
        match prevOf ev u j with
        | none => Tri.no
        | some p =>
          if q ev f QK.valueKnown u = Tri.yes then
            match currOf ev u with
            | some c => if ev.strat.isHistoryAltered u j p c then Tri.yes else Tri.no
            | none => Tri.no
          else Tri.unknown
  | f + 1, QK.willRun, d =>
    match ev.states d with
    | JobState.ReadyToRun _ => Tri.yes
    | JobState.Running _ => Tri.yes
    | JobState.Succeeded => Tri.no
    | JobState.NotNeeded => Tri.no
    | JobState.Failed => Tri.no
    | JobState.UpstreamFailed => Tri.no
    | _ =>
      if upstreamsFailedB ev d then Tri.no
      else
        match kindOf ev.graph d with
        | some JobKind.Always => Tri.yes
        | some JobKind.Output =>
          if !outputPresentB ev d then Tri.yes else q ev f QK.invalid d
        | some JobKind.Ephemeral =>
          match q ev f QK.invalid d with
          | Tri.yes =>
            if (downstreamsOf ev.graph d).any
                 fun x => !isFailedState (ev.states x)
            then Tri.yes else Tri.no
          | Tri.unknown => Tri.unknown
          | Tri.no => triAny (downstreamsOf ev.graph d) fun x => q ev f QK.willRun x
        | none => Tri.no

/-- gateFuel: fuel that dominates every alternation of upstream and
downstream recursion in `q` on the registered jobs. -/
def gateFuel (ev : Evaluator) : Nat :=
  4 * ev.graph.jobs.length + 4

/-- decideJob: the decision predicate (spec section 4.2), evaluated for
a job whose state is still undecided.  With all upstreams terminal the
predictive queries are settled, so the job resolves; with a pending
upstream the job stays Blocked, except that an ephemeral may already
resolve (or stay Blocked) through the demand fixed point. -/
def decideJob (ev : Evaluator) (j : String) : JobState :=
  if upstreamsFailedB ev j then JobState.UpstreamFailed
  else if !upstreamsDoneB ev j then JobState.Blocked
  else
    match kindOf ev.graph j with
    | some JobKind.Always => JobState.ReadyToRun true
    | some JobKind.Output =>
      if outputPresentB ev j = false then JobState.ReadyToRun true
      else
        match q ev (gateFuel ev) QK.invalid j with
        | Tri.yes => JobState.ReadyToRun true
        | _ => JobState.NotNeeded
    | some JobKind.Ephemeral =>
      match q ev (gateFuel ev) QK.invalid j with
      | Tri.yes =>
        if (downstreamsOf ev.graph j).any fun x => !isFailedState (ev.states x)
        then JobState.ReadyToRun true
        else JobState.NotNeeded
      | Tri.unknown => JobState.Blocked
      | Tri.no =>
        match triAny (downstreamsOf ev.graph j) fun x => q ev (gateFuel ev) QK.willRun x with
        | Tri.yes => JobState.ReadyToRun false
        | Tri.no => JobState.NotNeeded
        | Tri.unknown => JobState.Blocked
    | none => JobState.Blocked

/-- setState: update the state of one job. -/
def setState (ev : Evaluator) (j : String) (s : JobState) : Evaluator :=
  { ev with states := fun x => if x = j then s else ev.states x }

/-- stepJob: apply the decision predicate to one job if it is still
undecided; terminal and in-flight jobs are left alone. -/
def stepJob (ev : Evaluator) (j : String) : Evaluator :=
  if isUndecided (ev.states j) then setState ev j (decideJob ev j) else ev

/-- pass: one sweep of the decision predicate over all registered jobs,
in registration order. -/
def pass (ev : Evaluator) : Evaluator :=
  ev.graph.jobs.foldl (fun acc p => stepJob acc p.1) ev

/-- passIter: iterate `pass`. -/
def passIter : Nat → Evaluator → Evaluator
  | 0, ev => ev
  | n + 1, ev => passIter n (pass ev)

/-- recompute: the propagation fixed point run after every event (spec
section 4.3): sweeps of the decision predicate until nothing changes;
one sweep per job suffices on a DAG, we run one more for slack. -/
def recompute (ev : Evaluator) : Evaluator :=
  passIter (ev.graph.jobs.length + 1) ev

/-- mkEvaluator: a fresh evaluator over a graph, a strategy and a prior
history (`PPGEvaluator::new_with_history`). -/
def mkEvaluator (g : Graph) (s : Strategy) (h : History) : Evaluator :=
  { graph := g, strat := s, history := h
    states := fun _ => JobState.Undetermined, started := false }

/-- eventStartup: legal exactly once; resolves every initial state by
running the propagation fixed point (spec section 4.3). -/
def eventStartup (ev : Evaluator) : Except PPGEvaluatorError Evaluator :=
  if ev.started then Except.error (PPGEvaluatorError.APIError "already started")
  else Except.ok (recompute { ev with started := true })

/-- eventNowRunning: ReadyToRun to Running; anything else is an API
error. -/
def eventNowRunning (ev : Evaluator) (j : String) : Except PPGEvaluatorError Evaluator :=
  if !ev.started then Except.error (PPGEvaluatorError.APIError "not started")
  else
    match ev.states j with
    | JobState.ReadyToRun b => Except.ok (setState ev j (JobState.Running b))
    | _ => Except.error (PPGEvaluatorError.APIError "not ready to run")

/-- recordSuccess: the history update on success (spec section 4.3):
the node key takes the reported value, and the job's edge-key set is
replaced wholesale by its current upstream snapshot (an upstream with no
recorded node value contributes the empty string).  The wholesale
replacement is forced by invalidation rule 5 together with round-trip
stability (section 8): a stale edge key must disappear once the job has
rerun, otherwise it would rerun on every subsequent invocation. -/
def recordSuccess (g : Graph) (h : History) (j : String) (v : String) : History :=
  (upstreamsOf g j).foldl
    (fun acc u => hSet acc (HKey.edge u j) ((hGet acc (HKey.node u)).getD ""))
    (hSet (hEraseEdgesTo h j) (HKey.node j) v)

/-- eventSuccess: Running to Succeeded; records the new history value
and re-runs the propagation fixed point.  For a retriggered (not
invalidated) ephemeral with a recorded prior value, a differing value
violates the constant-output contract: the state still advances but the
`EphemeralChangedOutput` error is reported (spec sections 4.2 and 7; the
caller may log and continue). -/
def eventSuccess (ev : Evaluator) (j : String) (v : String) :
    Evaluator × Option PPGEvaluatorError :=
  if !ev.started then (ev, some (PPGEvaluatorError.APIError "not started"))
  else
    match ev.states j with
    | JobState.Running b =>
      let contractViolated :=
        kindOf ev.graph j = some JobKind.Ephemeral && !b &&
          match hGet ev.history (HKey.node j) with
          | some prior => decide (v ≠ prior)
          | none => false
      let ev1 := setState { ev with history := recordSuccess ev.graph ev.history j v }
        j JobState.Succeeded
      (recompute ev1,
        if contractViolated then some PPGEvaluatorError.EphemeralChangedOutput else none)
    | _ => (ev, some (PPGEvaluatorError.APIError "not running"))

/-- reachStep: one expansion of downstream reachability. -/
def reachStep (g : Graph) (s : List String) : List String :=
  (s ++ (g.edges.filter fun e => s.contains e.1).map (·.2)).dedup

/-- reachIter: iterate `reachStep`. -/
def reachIter (g : Graph) : Nat → List String → List String
  | 0, s => s
  | n + 1, s => reachIter g n (reachStep g s)

/-- reachableFrom: every id reachable from `j` along downstream edges,
`j` included. -/
def reachableFrom (g : Graph) (j : String) : List String :=
  reachIter g (g.edges.length + 1) [j]

/-- failStates: the state map after `j` fails: `j` becomes Failed and
every other reachable descendant that is not already Failed becomes
UpstreamFailed. -/
def failStates (ev : Evaluator) (j : String) : String → JobState := fun x =>
  if x = j then JobState.Failed
  else if (reachableFrom ev.graph j).contains x && !(ev.states x = JobState.Failed)
  then JobState.UpstreamFailed
  else ev.states x

/-- eventFailure: Running to Failed; UpstreamFailed propagates
transitively to every reachable descendant (spec section 4.3), then the
propagation fixed point runs (ephemerals upstream of the failure may
lose their demand). -/
def eventFailure (ev : Evaluator) (j : String) : Except PPGEvaluatorError Evaluator :=
  if !ev.started then Except.error (PPGEvaluatorError.APIError "not started")
  else
    match ev.states j with
    | JobState.Running _ =>
      Except.ok (recompute { ev with states := failStates ev j })
    | _ => Except.error (PPGEvaluatorError.APIError "not running")

/-- queryReadyToRun: ids currently in ReadyToRun, in registration
order. -/
def queryReadyToRun (ev : Evaluator) : List String :=
  ((ev.graph.jobs.map (·.1)).filter fun j =>
    match ev.states j with
    | JobState.ReadyToRun _ => true
    | _ => false)

/-- queryFailed: ids currently Failed. -/
def queryFailed (ev : Evaluator) : List String :=
  ((ev.graph.jobs.map (·.1)).filter fun j => ev.states j = JobState.Failed)

/-- queryUpstreamFailed: ids currently UpstreamFailed. -/
def queryUpstreamFailed (ev : Evaluator) : List String :=
  ((ev.graph.jobs.map (·.1)).filter fun j => ev.states j = JobState.UpstreamFailed)

/-- isFinished: every registered job is terminal (the reference contract
ignores cleanup; spec section 4.3). -/
def isFinished (ev : Evaluator) : Bool :=
  ev.graph.jobs.all fun p => isTerminal (ev.states p.1)

/-- newHistory: the history map to persist. -/
def newHistory (ev : Evaluator) : History :=
  ev.history

/-- verifyOrderWasTopological: true iff every job of the observed run
sequence appears after all of its upstreams that also appear (spec
section 4.6). -/
def verifyOrderWasTopological (g : Graph) (order : List String) : Bool :=
  go order []
where
  /-- go: walk the sequence keeping the set of already seen ids. -/
  go : List String → List String → Bool
    | [], _ => true
    | x :: rest, seen =>
      ((upstreamsOf g x).all fun u => !(order.contains u) || seen.contains u) &&
        go rest (x :: seen)

/-- testingStrategy: `StrategyForTesting` of src/lib.rs: the artifact is
present iff the id is in the already-done set, and history is altered
iff the recorded and current values differ.  The Rust strategy shares a
mutable set with the runner, which inserts each job after it ran; since
presence of a job is only ever queried while the job is still undecided,
the snapshot taken at run start is observationally equivalent. -/
def testingStrategy (done : List String) : Strategy :=
  { outputAlreadyPresent := fun queryId => done.contains queryId
    isHistoryAltered := fun _ _ lastRecorded currentValue =>
      decide (lastRecorded ≠ currentValue) }

/-- isHistoryAlteredPython: `StrategyForPython::is_history_altered` of
src/lib.rs (lines 260-287): when the recorded and the current value are
equal the answer is `false` outright; only otherwise is the Python
comparison callback consulted.  The callback is passed as a pure
function. -/
def isHistoryAlteredPython (callback : String → String → String → String → Bool)
    (jobIdUpstream jobIdDownstream lastRecordedValue currentValue : String) : Bool :=
  if lastRecordedValue = currentValue then false
  else callback jobIdUpstream jobIdDownstream lastRecordedValue currentValue

/-- Runner: `TestGraphRunner` of src/lib.rs: a deterministic driver that
simulates a complete run; jobs just register that they ran and output a
dummy history value (overridable through `outputs`). -/
structure Runner where
  setupGraph : Graph
  runCounters : String → Nat
  history : History
  alreadyDone : List String
  allowedNesting : Nat
  outputs : List (String × String)
  runOrder : List String

/-- runnerNew: `TestGraphRunner::new` - empty state, nesting allowance
250. -/
def runnerNew (g : Graph) : Runner :=
  { setupGraph := g, runCounters := fun _ => 0, history := []
    alreadyDone := [], allowedNesting := 250, outputs := [], runOrder := [] }

/-- outputValueFor: the history value a job reports on success in the
test driver: the `outputs` override if set, else `history_<id>`. -/
def outputValueFor (r : Runner) (j : String) : String :=
  match r.outputs.find? fun p => p.1 = j with
  | some p => p.2
  | none => "history_" ++ j

/-- LoopState: the mutable state of the driver loop: the evaluator, the
accumulated run counters and the run order of the current run. -/
structure LoopState where
  ev : Evaluator
  counters : String → Nat
  order : List String

/-- processJob: one job of a round: report it running (incrementing its
counter and recording the order), then report failure (if requested) or
success with its dummy value.  An `EphemeralChangedOutput` on success is
logged and ignored by the driver; an `APIError` aborts (the Rust driver
panics there, modelled as error propagation). -/
def processJob (r : Runner) (jobsToFail : List String) (ls : LoopState) (j : String) :
    Except PPGEvaluatorError LoopState := do
  let ev1 ← eventNowRunning ls.ev j
  let counters := fun x => if x = j then ls.counters j + 1 else ls.counters x
  let order := ls.order ++ [j]
  if jobsToFail.contains j then do
    let ev2 ← eventFailure ev1 j
    return { ev := ev2, counters := counters, order := order }
  else
    match eventSuccess ev1 j (outputValueFor r j) with
    | (_, some (PPGEvaluatorError.APIError m)) =>
      Except.error (PPGEvaluatorError.APIError m)
    | (ev2, _) => return { ev := ev2, counters := counters, order := order }

/-- processRound: one iteration of the driver loop: process every job of
the ready snapshot in order. -/
def processRound (r : Runner) (jobsToFail : List String) (ls : LoopState) :
    Except PPGEvaluatorError LoopState :=
  (queryReadyToRun ls.ev).foldlM (processJob r jobsToFail) ls

/-- nestingError: the error `TestGraphRunner::run` returns when the
nesting allowance is exhausted. -/
def nestingError (r : Runner) : PPGEvaluatorError :=
  PPGEvaluatorError.APIError
    ("run out of room, you nested them more than " ++ toString r.allowedNesting ++ " deep?")

/-- runLoop: the driver loop of `TestGraphRunner::run`: while the
evaluator is not finished, run a round over the ready snapshot, then
decrement the counter and fail with the nesting error when it reaches
zero.  The counter argument plays the role of the Rust `counter`
variable, so the loop body executes at most `counter` times. -/
def runLoop (r : Runner) (jobsToFail : List String) :
    Nat → LoopState → Except PPGEvaluatorError LoopState
  | c, ls =>
    if isFinished ls.ev then Except.ok ls
    else
      match c with
      | 0 => Except.error (nestingError r)
      | c' + 1 => do
        let ls1 ← processRound r jobsToFail ls
        if c' = 0 then Except.error (nestingError r) else runLoop r jobsToFail c' ls1

/-- runnerRun: `TestGraphRunner::run`: build a fresh evaluator over the
stored history and already-done set, start it up, drive it to
completion, then harvest the new history, extend the already-done set
with every job that ran, and check the observed order was topological
(a violation panics in Rust, modelled as an error). -/
def runnerRun (r : Runner) (jobsToFail : List String) :
    Except PPGEvaluatorError (Runner × Evaluator) := do
  let ev0 := mkEvaluator r.setupGraph (testingStrategy r.alreadyDone) r.history
  let ev1 ← eventStartup ev0
  let ls ← runLoop r jobsToFail r.allowedNesting
    { ev := ev1, counters := r.runCounters, order := [] }
  let r1 := { r with
    history := newHistory ls.ev
    runCounters := ls.counters
    alreadyDone := r.alreadyDone ++ ls.order
    runOrder := ls.order }
  if verifyOrderWasTopological r.setupGraph ls.order then return (r1, ls.ev)
  else Except.error (PPGEvaluatorError.APIError "Run order was not topological")

/-- EvAction: one call of the public event API (spec section 4.3), used
to quantify over arbitrary continuations of an evaluation. -/
inductive EvAction where
  | startup
  | nowRunning (j : String)
  | success (j v : String)
  | failure (j : String)

/-- applyEvent: apply one event; a rejected event (API error) leaves the
evaluator unchanged, a success keeps the updated state even when the
ephemeral contract error is reported (the caller may log and
continue). -/
def applyEvent (ev : Evaluator) : EvAction → Evaluator
  | EvAction.startup =>
    match eventStartup ev with
    | Except.ok e => e
    | Except.error _ => ev
  | EvAction.nowRunning j =>
    match eventNowRunning ev j with
    | Except.ok e => e
    | Except.error _ => ev
  | EvAction.success j v => (eventSuccess ev j v).1
  | EvAction.failure j =>
    match eventFailure ev j with
    | Except.ok e => e
    | Except.error _ => ev

/-- applyEvents: apply a sequence of events. -/
def applyEvents (ev : Evaluator) (l : List EvAction) : Evaluator :=
  l.foldl applyEvent ev

/-- ephAlwaysChain: true iff an Always job is reachable from `j` along
downstream edges through a chain of Ephemeral intermediates.  Such an
ephemeral is re-demanded on every invocation, because Always jobs run
every time and need their ephemeral inputs materialised. -/
def ephAlwaysChain (g : Graph) : Nat → String → Bool
  | 0, _ => false
  | f + 1, j =>
    (downstreamsOf g j).any fun d =>
      match kindOf g d with
      | some JobKind.Always => true
      | some JobKind.Ephemeral => ephAlwaysChain g f d
      | _ => false

/-- keyInGraphB: is this history key registered in the graph - its job
for a node key, its edge for an edge key? -/
def keyInGraphB (g : Graph) : HKey → Bool
  | HKey.node i => (kindOf g i).isSome
  | HKey.edge u d => g.edges.contains (u, d)

/-- keyDownstreamSafeB: history keys that no success event can ever
touch: node keys of unregistered jobs, and edge keys whose downstream
job is unregistered. -/
def keyDownstreamSafeB (g : Graph) : HKey → Bool
  | HKey.node i => (kindOf g i).isNone
  | HKey.edge _ d => (kindOf g d).isNone

/-! Concrete scenarios referenced by the claims. -/

/-- triangleGraph: `out, out2, out3` (all Output), `out2` and `out3`
depending on `out` (test_three_outputs). -/
def triangleGraph : Graph :=
  ⟨[("out", JobKind.Output), ("out2", JobKind.Output), ("out3", JobKind.Output)],
   [("out", "out2"), ("out", "out3")]⟩

/-- triangleRun: the event sequence of test_three_outputs from an empty
history: run `out`, then `out2` and `out3`. -/
def triangleRun : Option Evaluator :=
  (do
    let ev ← eventStartup (mkEvaluator triangleGraph (testingStrategy []) [])
    let ev ← eventNowRunning ev "out"
    let ev := (eventSuccess ev "out" "outAResult").1
    let ev ← eventNowRunning ev "out2"
    let ev ← eventNowRunning ev "out3"
    let ev := (eventSuccess ev "out2" "out2output").1
    let ev := (eventSuccess ev "out3" "out3output").1
    return ev).toOption

/-- issue726Graph: the diamond-with-extra of issue 20210726a: `J0←J2`,
`J2←J3`, `J2←J76`, `J76←J3`; `J2`, `J3` Ephemeral, `J0`, `J76`
Output. -/
def issue726Graph : Graph :=
  ⟨[("J0", JobKind.Output), ("J2", JobKind.Ephemeral), ("J3", JobKind.Ephemeral),
    ("J76", JobKind.Output)],
   [("J2", "J0"), ("J3", "J2"), ("J76", "J2"), ("J3", "J76")]⟩

/-- issue726Trace: drive issue726Graph from an empty history, recording
the ready snapshot after startup and after each success, and whether the
evaluator is finished at the end. -/
def issue726Trace : Option (List String × List String × List String × List String × Bool) :=
  (do
    let ev ← eventStartup (mkEvaluator issue726Graph (testingStrategy []) [])
    let s0 := queryReadyToRun ev
    let ev ← eventNowRunning ev "J3"
    let ev := (eventSuccess ev "J3" "").1
    let s1 := queryReadyToRun ev
    let ev ← eventNowRunning ev "J76"
    let ev := (eventSuccess ev "J76" "").1
    let s2 := queryReadyToRun ev
    let ev ← eventNowRunning ev "J2"
    let ev := (eventSuccess ev "J2" "").1
    let s3 := queryReadyToRun ev
    let ev ← eventNowRunning ev "J0"
    let ev := (eventSuccess ev "J0" "").1
    return (s0, s1, s2, s3, isFinished ev)).toOption

/-- singletonEphemeralGraph: one Ephemeral job and nothing else
(terminal_ephemeral_singleton). -/
def singletonEphemeralGraph : Graph :=
  ⟨[("TA", JobKind.Ephemeral)], []⟩

/-- singletonEphemeralStartup: the state right after startup on the
singleton ephemeral graph. -/
def singletonEphemeralStartup : Option Evaluator :=
  (eventStartup (mkEvaluator singletonEphemeralGraph (testingStrategy []) [])).toOption

/-- ephAlwaysGraph: an Always job depending on an Ephemeral job; the
Always job runs every invocation and demands its ephemeral input
materialised, so the ephemeral reruns too. -/
def ephAlwaysGraph : Graph :=
  ⟨[("E", JobKind.Ephemeral), ("A", JobKind.Always)], [("E", "A")]⟩

/-- runsEphemeralZeroAdditional: the round-trip-stability claim
restricted to the part under test: for this graph, driving the test
runner twice in a row from a fresh state runs every Ephemeral job zero
additional times on the second invocation. -/
def runsEphemeralZeroAdditional (g : Graph) : Prop :=
  ∀ (r1 : Runner) (ev1 : Evaluator) (r2 : Runner) (ev2 : Evaluator),
    runnerRun (runnerNew g) [] = Except.ok (r1, ev1) →
    runnerRun r1 [] = Except.ok (r2, ev2) →
    ∀ j, kindOf g j = some JobKind.Ephemeral → r2.runCounters j = r1.runCounters j

/-- historyPreservedClaim: every input-history key whose job or edge is
not registered in the current graph survives any evaluation verbatim
(the history-preservation sentence of the spec, taken literally). -/
def historyPreservedClaim : Prop :=
  ∀ (g : Graph) (s : Strategy) (h0 : History) (evs : List EvAction) (k : HKey),
    keyInGraphB g k = false →
    hGet (newHistory (applyEvents (mkEvaluator g s h0) evs)) k = hGet h0 k

/-- straySingletonGraph: a single Output job `C`. -/
def straySingletonGraph : Graph :=
  ⟨[("C", JobKind.Output)], []⟩

/-- strayEdgeHistory: a history carrying a stale edge key for `C` whose
upstream `X` is not in the graph. -/
def strayEdgeHistory : History :=
  [(HKey.edge "X" "C", "v")]

/-- strayEdgeEvents: startup, then run `C` to success. -/
def strayEdgeEvents : List EvAction :=
  [EvAction.startup, EvAction.nowRunning "C", EvAction.success "C" "history_C"]

/-- loosingInputGraphA: first-run graph of
test_loosing_an_input_is_invalidating: `A` (Always) feeding `C`
(Output). -/
def loosingInputGraphA : Graph :=
  ⟨[("A", JobKind.Always), ("C", JobKind.Output)], [("A", "C")]⟩

/-- loosingInputGraphB: second-run graph: only `C`. -/
def loosingInputGraphB : Graph :=
  ⟨[("C", JobKind.Output)], []⟩

/-- loosingInputCounters: run the first graph, re-register only `C`,
run again; report the run counters of `A` and `C`. -/
def loosingInputCounters : Option (Nat × Nat) :=
  (do
    let (r, _) ← runnerRun (runnerNew loosingInputGraphA) []
    let (r, _) ← runnerRun { r with setupGraph := loosingInputGraphB } []
    return (r.runCounters "A", r.runCounters "C")).toOption

/-- roundIter: iterate driver rounds; used to state the nesting bound of
`TestGraphRunner::run` (`runLoop` executes at most its counter's worth
of rounds). -/
def roundIter (r : Runner) (jobsToFail : List String) :
    Nat → LoopState → Except PPGEvaluatorError LoopState
  | 0, ls => Except.ok ls
  | n + 1, ls => do
    let ls1 ← processRound r jobsToFail ls
    roundIter r jobsToFail n ls1

/-- ephemeralInertState: the states available to an ephemeral that is
never demanded: it is never offered to run. -/
def ephemeralInertState : JobState → Bool
  | JobState.Undetermined => true
  | JobState.Blocked => true
  | JobState.NotNeeded => true
  | JobState.UpstreamFailed => true
  | _ => false

/-- unregisteredInert: the states available to an id that is not
registered in the graph. -/
def unregisteredInert : JobState → Bool
  | JobState.Undetermined => true
  | JobState.UpstreamFailed => true
  | _ => false

/-- failureWitnessEv: a two-job evaluator with `A` running, feeding the
failure-closure witness. -/
def failureWitnessEv : Evaluator :=
  { graph := ⟨[("A", JobKind.Output), ("B", JobKind.Output)], [("A", "B")]⟩
    strat := testingStrategy []
    history := []
    states := fun x => if x = "A" then JobState.Running true else JobState.Blocked
    started := true }

/-- contractWitnessEv: an evaluator with a retriggered (not invalidated)
running ephemeral `TA` whose prior value is recorded, feeding the
constant-output-contract witness. -/
def contractWitnessEv : Evaluator :=
  { graph := ⟨[("TA", JobKind.Ephemeral), ("B", JobKind.Output)], [("TA", "B")]⟩
    strat := testingStrategy []
    history := [(HKey.node "TA", "old")]
    states := fun x => if x = "TA" then JobState.Running false else JobState.Blocked
    started := true }

/-- stuckLoopState: a loop state that is neither finished nor offers any
job (the evaluator never started, every state undetermined), feeding
the nesting-bound witness. -/
def stuckLoopState : LoopState :=
  { ev := mkEvaluator straySingletonGraph (testingStrategy []) []
    counters := fun _ => 0
    order := [] }

/-- presentOutputGraph: an Ephemeral `TB` feeding a single Output `C` -
the ephemeral DOES have a downstream, but one that need not run when
its artifact is already present and its records are clean. -/
def presentOutputGraph : Graph :=
  ⟨[("TB", JobKind.Ephemeral), ("C", JobKind.Output)], [("TB", "C")]⟩

/-- presentOutputHistory: the history a completed earlier run of
`presentOutputGraph` leaves behind: both node values recorded and the
edge record matching the upstream's value. -/
def presentOutputHistory : History :=
  [(HKey.node "TB", "vTB"), (HKey.edge "TB" "C", "vTB"), (HKey.node "C", "vC")]

/-- presentOutputEv: a fresh evaluator over `presentOutputGraph` with
`C`'s artifact already present and the clean history: `C` is not
invalidated, so it is not eligible to run, and `TB` has no surviving
downstream demand. -/
def presentOutputEv : Evaluator :=
  mkEvaluator presentOutputGraph (testingStrategy ["C"]) presentOutputHistory

/-- EphDemandsAlways: an Always job is reachable from `j` along
downstream edges through Ephemeral intermediates.  Such a job is
re-demanded on every invocation: the Always job runs every time and
needs its ephemeral inputs materialised, transitively. -/
inductive EphDemandsAlways (g : Graph) : String → Prop where
  | direct (j d : String) (hd : d ∈ downstreamsOf g j)
      (hk : kindOf g d = some JobKind.Always) : EphDemandsAlways g j
  | chain (j d : String) (hd : d ∈ downstreamsOf g j)
      (hk : kindOf g d = some JobKind.Ephemeral) (h : EphDemandsAlways g d) :
      EphDemandsAlways g j

/-- rerunsEveryTime: the jobs that run on every invocation of the test
driver: Always jobs, and ephemerals demanded by an Always job through an
ephemeral chain. -/
def rerunsEveryTime (g : Graph) (j : String) : Prop :=
  kindOf g j = some JobKind.Always ∨
    (kindOf g j = some JobKind.Ephemeral ∧ EphDemandsAlways g j)

/-- succFactH: what a successful run records for a job that ran: its
node key carries the value the driver reports, its edge keys are exactly
the current upstream snapshot, and its artifact is in the already-done
set. -/
def succFactH (r : Runner) (j : String) : Prop :=
  hGet r.history (HKey.node j) = some (outputValueFor r j) ∧
  (∀ u, u ∈ upstreamsOf r.setupGraph j →
    hGet r.history (HKey.edge u j) = some ((hGet r.history (HKey.node u)).getD "")) ∧
  (∀ u, (hGet r.history (HKey.edge u j)).isSome = true → u ∈ upstreamsOf r.setupGraph j) ∧
  r.alreadyDone.contains j = true

/-- quietFactH: what holds of a job the run decided NotNeeded: either a
consumerless ephemeral, or a job whose recorded inputs exactly match the
graph and history (no stale key, no missing key, no altered value) with
its artifact present if it is an Output job. -/
def quietFactH (r : Runner) (j : String) : Prop :=
  (kindOf r.setupGraph j = some JobKind.Ephemeral ∧ downstreamsOf r.setupGraph j = []) ∨
  ((∀ u, (hGet r.history (HKey.edge u j)).isSome = true → u ∈ upstreamsOf r.setupGraph j) ∧
   (∀ u, u ∈ upstreamsOf r.setupGraph j → (hGet r.history (HKey.edge u j)).isSome = true) ∧
   (∀ u p c, u ∈ upstreamsOf r.setupGraph j → hGet r.history (HKey.edge u j) = some p →
     hGet r.history (HKey.node u) = some c → p = c) ∧
   (kindOf r.setupGraph j = some JobKind.Output → r.alreadyDone.contains j = true))

/-- goodHistory: the state of a runner right after a complete successful
run: every registered job either ran (and recorded its snapshot) or was
quiet (and its recorded inputs match); Always jobs and demanded
ephemerals certainly ran. -/
def goodHistory (r : Runner) : Prop :=
  ∀ j kk, kindOf r.setupGraph j = some kk →
    (succFactH r j ∨ quietFactH r j) ∧
    (kk = JobKind.Always → succFactH r j) ∧
    (kk = JobKind.Ephemeral → EphDemandsAlways r.setupGraph j → succFactH r j)

/-- cleanInputs: the recorded inputs of a job exactly match the graph
and the history the first run left: no stale edge key, no missing edge
key, and every recorded edge value equals the upstream's recorded node
value. -/
def cleanInputs (r1 : Runner) (d : String) : Prop :=
  (∀ u, (hGet r1.history (HKey.edge u d)).isSome = true →
    u ∈ upstreamsOf r1.setupGraph d) ∧
  (∀ u, u ∈ upstreamsOf r1.setupGraph d →
    (hGet r1.history (HKey.edge u d)).isSome = true) ∧
  (∀ u p c, u ∈ upstreamsOf r1.setupGraph d →
    hGet r1.history (HKey.edge u d) = some p →
    hGet r1.history (HKey.node u) = some c → p = c)

/-- runInvE: the evaluator part of the loop invariant of a driver run
with nothing failing: no job fails; decided jobs have settled upstreams;
succeeded jobs carry their success facts and are on the run order;
NotNeeded jobs carry their quiet facts and are neither Always jobs nor
demanded ephemerals. -/
def runInvE (r : Runner) (o : List String) (ev : Evaluator) : Prop :=
  ev.graph = r.setupGraph ∧
  ev.strat = testingStrategy r.alreadyDone ∧
  ev.started = true ∧
  (∀ x, isFailedState (ev.states x) = false) ∧
  (∀ x, isUndecided (ev.states x) = false → upstreamsDoneB ev x = true) ∧
  (∀ x, ev.states x = JobState.Succeeded →
    hGet ev.history (HKey.node x) = some (outputValueFor r x) ∧
    (∀ u, u ∈ upstreamsOf r.setupGraph x →
      hGet ev.history (HKey.edge u x)
        = some ((hGet ev.history (HKey.node u)).getD "")) ∧
    (∀ u, (hGet ev.history (HKey.edge u x)).isSome = true →
      u ∈ upstreamsOf r.setupGraph x) ∧
    x ∈ o) ∧
  (∀ x, ev.states x = JobState.NotNeeded →
    kindOf r.setupGraph x ≠ some JobKind.Always ∧
    ¬ (kindOf r.setupGraph x = some JobKind.Ephemeral ∧
        EphDemandsAlways r.setupGraph x) ∧
    ((kindOf r.setupGraph x = some JobKind.Ephemeral ∧
        downstreamsOf r.setupGraph x = []) ∨
     ((∀ u, (hGet ev.history (HKey.edge u x)).isSome = true →
        u ∈ upstreamsOf r.setupGraph x) ∧
      (∀ u, u ∈ upstreamsOf r.setupGraph x →
        (hGet ev.history (HKey.edge u x)).isSome = true) ∧
      (∀ u p c, u ∈ upstreamsOf r.setupGraph x →
        hGet ev.history (HKey.edge u x) = some p →
        hGet ev.history (HKey.node u) = some c → p = c) ∧
      (kindOf r.setupGraph x = some JobKind.Output →
        r.alreadyDone.contains x = true))))

/-- runInv: `runInvE` over the full loop state. -/
def runInv (r : Runner) (ls : LoopState) : Prop :=
  runInvE r ls.order ls.ev

/-- roundTwoInvE: the evaluator part of the loop invariant of the second
run, relative to the runner state `r1` harvested from a complete
successful first run: the history stays (lookup-wise) what the first run
left, nothing fails, only Always jobs and demanded ephemerals are ever
scheduled, Always jobs are never quiet, and each counter exceeds its
first-run value exactly when the job reached Running. -/
def roundTwoInvE (r1 : Runner) (c : String → Nat) (ev : Evaluator) : Prop :=
  ev.graph = r1.setupGraph ∧
  ev.strat = testingStrategy r1.alreadyDone ∧
  ev.started = true ∧
  (∀ x, isFailedState (ev.states x) = false) ∧
  (∀ k, hGet ev.history k = hGet r1.history k) ∧
  (∀ x, ¬ rerunsEveryTime r1.setupGraph x →
    (ev.states x = JobState.Undetermined ∨ ev.states x = JobState.Blocked ∨
     ev.states x = JobState.NotNeeded)) ∧
  (∀ x, kindOf r1.setupGraph x = some JobKind.Always →
    ev.states x ≠ JobState.NotNeeded) ∧
  (∀ x, c x = r1.runCounters x +
    (match ev.states x with
     | JobState.Running _ => 1
     | JobState.Succeeded => 1
     | _ => 0))

/-- roundTwoInv: `roundTwoInvE` over the full loop state. -/
def roundTwoInv (r1 : Runner) (ls : LoopState) : Prop :=
  roundTwoInvE r1 ls.counters ls.ev

/-- c1WitnessGraph: a single Output job, used to instantiate the
round-trip theorem on a concrete graph. -/
def c1WitnessGraph : Graph :=
  ⟨[("A", JobKind.Output)], []⟩

/-! Theorems. -/

set_option maxHeartbeats 16000000 in
/-- C5: on the triangle `out2←out`, `out3←out` (all Output) run from an
empty history, the harvested history holds exactly 5 keys - a node key
per job with its reported value - and both edge keys `out!!!out2` and
`out!!!out3` carry the value `out` reported on success. -/
theorem c5_triangle_history :
    (triangleRun.map fun ev => (newHistory ev).length) = some 5 ∧
    (triangleRun.bind fun ev => hGet (newHistory ev) (HKey.edge "out" "out2"))
      = some "outAResult" ∧
    (triangleRun.bind fun ev => hGet (newHistory ev) (HKey.edge "out" "out3"))
      = some "outAResult" ∧
    (triangleRun.bind fun ev => hGet (newHistory ev) (HKey.node "out")) = some "outAResult" ∧
    (triangleRun.bind fun ev => hGet (newHistory ev) (HKey.node "out2")) = some "out2output" ∧
    (triangleRun.bind fun ev => hGet (newHistory ev) (HKey.node "out3")) = some "out3output" := by
  decide

set_option maxHeartbeats 16000000 in
/-- C8: on the diamond-with-extra of issue 20210726a, the evaluator
offers the jobs one at a time in the order `J3, J76, J2, J0`, and is
finished after `J0` succeeds. -/
theorem c8_issue_20210726a_order :
    issue726Trace = some (["J3"], ["J76"], ["J2"], ["J0"], true) := by
  decide

/-- C10: `StrategyForPython::is_history_altered` answers `false` for
equal recorded and current values no matter what the Python callback
would say - the comparison short-circuits before the callback, so the
callback can never classify an unchanged value as altered. -/
theorem c10_python_short_circuit :
    ∀ (cb : String → String → String → String → Bool) (up down v : String),
      isHistoryAlteredPython cb up down v v = false := by
  intro cb up down v
  simp [isHistoryAlteredPython]

set_option maxHeartbeats 16000000 in
/-- C1, counterexample: round-trip stability fails for Ephemeral jobs
as soon as an Always job depends on one: on `ephAlwaysGraph` the
ephemeral `E` runs again on the second invocation (the Always job `A`
reruns and demands its ephemeral input materialised). -/
theorem c1_counterexample : ¬ runsEphemeralZeroAdditional ephAlwaysGraph := by
  intro h
  have hA : (runnerRun (runnerNew ephAlwaysGraph) []).toOption.map
      (fun p => p.1.runCounters "E") = some 1 := by decide
  have hB : ((runnerRun (runnerNew ephAlwaysGraph) []).toOption.bind
      fun p => (runnerRun p.1 []).toOption).map (fun p => p.1.runCounters "E") = some 2 := by
    decide
  cases hE : runnerRun (runnerNew ephAlwaysGraph) [] with
  | error e => rw [hE] at hA; simp [Except.toOption] at hA
  | ok p =>
    rw [hE] at hA hB
    simp [Except.toOption] at hA hB
    cases hE2 : runnerRun p.1 [] with
    | error e2 => rw [hE2] at hB; simp at hB
    | ok Q =>
      rw [hE2] at hB
      simp at hB
      have heq := h p.1 p.2 Q.1 Q.2 (by rw [hE]) (by rw [hE2]) "E" (by decide)
      obtain ⟨a, ⟨x, hQ⟩, ha⟩ := hB
      rw [hQ] at heq
      simp only at heq
      omega

set_option maxHeartbeats 16000000 in
/-- C6, counterexample: a history key whose edge is not registered is
not always preserved: an edge key whose downstream job is registered
and succeeds during the run is erased (the job rewrites its edge-key
set wholesale on success). -/
theorem c6_counterexample : ¬ historyPreservedClaim := fun h =>
  absurd
    (h straySingletonGraph (testingStrategy []) strayEdgeHistory strayEdgeEvents
      (HKey.edge "X" "C") (by decide))
    (by decide)

/-! Lemmas about history maps. -/

theorem hGet_hSet_self (h : History) (k : HKey) (v : String) :
    hGet (hSet h k v) k = some v := by
  induction h with
  | nil => simp [hSet, hGet]
  | cons p t ih =>
    obtain ⟨k1, w⟩ := p
    by_cases hk : k1 = k
    · simp [hSet, hGet, hk]
    · simp [hSet, hGet, hk, ih]

theorem hGet_hSet_ne (h : History) (k k2 : HKey) (v : String) (hne : k2 ≠ k) :
    hGet (hSet h k v) k2 = hGet h k2 := by
  induction h with
  | nil =>
    show (if k = k2 then some v else hGet [] k2) = hGet [] k2
    rw [if_neg fun hc => hne hc.symm]
  | cons p t ih =>
    obtain ⟨k1, w⟩ := p
    by_cases hk : k1 = k
    · subst hk
      show hGet (if k1 = k1 then (k1, v) :: t else (k1, w) :: hSet t k1 v) k2 = _
      rw [if_pos rfl, hGet, hGet, if_neg fun hc => hne hc.symm,
        if_neg fun hc => hne hc.symm]
    · show hGet (if k1 = k then (k, v) :: t else (k1, w) :: hSet t k v) k2 = _
      rw [if_neg hk, hGet, hGet]
      by_cases hk2 : k1 = k2
      · rw [if_pos hk2, if_pos hk2]
      · rw [if_neg hk2, if_neg hk2, ih]

theorem hGet_eraseEdgesTo_of_ne (h : History) (j : String) (k : HKey)
    (hk : ∀ u, k ≠ HKey.edge u j) :
    hGet (hEraseEdgesTo h j) k = hGet h k := by
  induction h with
  | nil => rfl
  | cons p t ih =>
    obtain ⟨k1, w⟩ := p
    cases k1 with
    | node i =>
      show hGet ((HKey.node i, w) :: hEraseEdgesTo t j) k = _
      rw [hGet, hGet, ih]
    | edge u d =>
      by_cases hd : d = j
      · subst hd
        show hGet (if d = d then hEraseEdgesTo t d else _) k = _
        rw [if_pos rfl, ih, hGet, if_neg fun hc => hk u hc.symm]
      · show hGet (if d = j then _ else (HKey.edge u d, w) :: hEraseEdgesTo t j) k = _
        rw [if_neg hd, hGet, hGet, ih]

theorem hGet_recordSuccess_other (g : Graph) (h : History) (j v : String) (k : HKey)
    (hnode : ∀ i, k = HKey.node i → i ≠ j)
    (hedge : ∀ u d, k = HKey.edge u d → d ≠ j) :
    hGet (recordSuccess g h j v) k = hGet h k := by
  have hbase : hGet (hSet (hEraseEdgesTo h j) (HKey.node j) v) k = hGet h k := by
    rw [hGet_hSet_ne _ _ _ _ (fun hc => hnode j hc rfl)]
    exact hGet_eraseEdgesTo_of_ne h j k (fun u hc => hedge u j hc rfl)
  rw [recordSuccess]
  generalize hSet (hEraseEdgesTo h j) (HKey.node j) v = h0 at hbase
  induction upstreamsOf g j generalizing h0 with
  | nil => exact hbase
  | cons u t ih =>
    rw [List.foldl_cons]
    exact ih _ (by rw [hGet_hSet_ne _ _ _ _ (fun hc => hedge u j hc rfl)]; exact hbase)

/-! Lemmas about the propagation machinery. -/

theorem stepJob_graph (ev : Evaluator) (i : String) : (stepJob ev i).graph = ev.graph := by
  unfold stepJob setState
  split <;> rfl

theorem stepJob_strat (ev : Evaluator) (i : String) : (stepJob ev i).strat = ev.strat := by
  unfold stepJob setState
  split <;> rfl

theorem stepJob_history (ev : Evaluator) (i : String) :
    (stepJob ev i).history = ev.history := by
  unfold stepJob setState
  split <;> rfl

theorem stepJob_started (ev : Evaluator) (i : String) :
    (stepJob ev i).started = ev.started := by
  unfold stepJob setState
  split <;> rfl

theorem foldl_stepJob_graph (l : List (String × JobKind)) :
    ∀ ev : Evaluator, (l.foldl (fun a p => stepJob a p.1) ev).graph = ev.graph := by
  induction l with
  | nil => intro ev; rfl
  | cons p t ih => intro ev; rw [List.foldl_cons, ih, stepJob_graph]

theorem foldl_stepJob_history (l : List (String × JobKind)) :
    ∀ ev : Evaluator, (l.foldl (fun a p => stepJob a p.1) ev).history = ev.history := by
  induction l with
  | nil => intro ev; rfl
  | cons p t ih => intro ev; rw [List.foldl_cons, ih, stepJob_history]

theorem foldl_stepJob_strat (l : List (String × JobKind)) :
    ∀ ev : Evaluator, (l.foldl (fun a p => stepJob a p.1) ev).strat = ev.strat := by
  induction l with
  | nil => intro ev; rfl
  | cons p t ih => intro ev; rw [List.foldl_cons, ih, stepJob_strat]

theorem foldl_stepJob_started (l : List (String × JobKind)) :
    ∀ ev : Evaluator, (l.foldl (fun a p => stepJob a p.1) ev).started = ev.started := by
  induction l with
  | nil => intro ev; rfl
  | cons p t ih => intro ev; rw [List.foldl_cons, ih, stepJob_started]

theorem pass_graph (ev : Evaluator) : (pass ev).graph = ev.graph :=
  foldl_stepJob_graph _ ev

theorem pass_history (ev : Evaluator) : (pass ev).history = ev.history :=
  foldl_stepJob_history _ ev

theorem pass_strat (ev : Evaluator) : (pass ev).strat = ev.strat :=
  foldl_stepJob_strat _ ev

theorem pass_started (ev : Evaluator) : (pass ev).started = ev.started :=
  foldl_stepJob_started _ ev

theorem passIter_graph (n : Nat) : ∀ ev : Evaluator, (passIter n ev).graph = ev.graph := by
  induction n with
  | zero => intro ev; rfl
  | succ m ih => intro ev; rw [passIter, ih, pass_graph]

theorem passIter_history (n : Nat) :
    ∀ ev : Evaluator, (passIter n ev).history = ev.history := by
  induction n with
  | zero => intro ev; rfl
  | succ m ih => intro ev; rw [passIter, ih, pass_history]

theorem passIter_strat (n : Nat) : ∀ ev : Evaluator, (passIter n ev).strat = ev.strat := by
  induction n with
  | zero => intro ev; rfl
  | succ m ih => intro ev; rw [passIter, ih, pass_strat]

theorem passIter_started (n : Nat) :
    ∀ ev : Evaluator, (passIter n ev).started = ev.started := by
  induction n with
  | zero => intro ev; rfl
  | succ m ih => intro ev; rw [passIter, ih, pass_started]

theorem recompute_graph (ev : Evaluator) : (recompute ev).graph = ev.graph :=
  passIter_graph _ ev

theorem recompute_history (ev : Evaluator) : (recompute ev).history = ev.history :=
  passIter_history _ ev

theorem recompute_strat (ev : Evaluator) : (recompute ev).strat = ev.strat :=
  passIter_strat _ ev

theorem recompute_started (ev : Evaluator) : (recompute ev).started = ev.started :=
  passIter_started _ ev

theorem setState_states (ev : Evaluator) (i : String) (s : JobState) (x : String) :
    (setState ev i s).states x = if x = i then s else ev.states x := rfl

theorem stepJob_states_ne (ev : Evaluator) (i x : String) (hx : x ≠ i) :
    (stepJob ev i).states x = ev.states x := by
  unfold stepJob
  split
  · rw [setState_states, if_neg hx]
  · rfl

theorem stepJob_of_not_undecided (ev : Evaluator) (i : String)
    (h : isUndecided (ev.states i) = false) : stepJob ev i = ev := by
  simp [stepJob, h]

theorem stepJob_states_self (ev : Evaluator) (i : String)
    (h : isUndecided (ev.states i) = true) :
    (stepJob ev i).states i = decideJob ev i := by
  simp [stepJob, h, setState_states]

theorem kindOf_isSome_of_mem (l : List (String × JobKind)) (i : String) (kk : JobKind)
    (h : (i, kk) ∈ l) : ((l.find? fun p => p.1 = i).map (·.2)).isSome = true := by
  induction l with
  | nil => cases h
  | cons p t ih =>
    by_cases hp : p.1 = i
    · simp [List.find?, hp]
    · have : (i, kk) ∈ t := by
        rcases List.mem_cons.mp h with hh | hh
        · exact absurd (by rw [← hh]) hp
        · exact hh
      simp [List.find?, hp, ih this]

/-! A small per-job invariant framework: a predicate on the state of a
fixed job `j` that excludes ReadyToRun and Running, holds of
UpstreamFailed, and is preserved by the decision predicate, is preserved
by every event. -/

theorem stepJob_pres (P : JobState → Bool) (g : Graph) (j : String)
    (hDec : ∀ ev2 : Evaluator, ev2.graph = g → (∃ kk, (j, kk) ∈ g.jobs) →
      isUndecided (ev2.states j) = true → P (ev2.states j) = true →
      P (decideJob ev2 j) = true)
    (ev : Evaluator) (i : String) (hi : ∃ kk, (i, kk) ∈ g.jobs)
    (hg : ev.graph = g) (hP : P (ev.states j) = true) :
    P ((stepJob ev i).states j) = true := by
  by_cases hij : j = i
  · subst hij
    by_cases hu : isUndecided (ev.states j) = true
    · rw [stepJob_states_self ev j hu]
      exact hDec ev hg hi hu hP
    · rw [stepJob_of_not_undecided ev j (by simpa using hu)]
      exact hP
  · rw [stepJob_states_ne ev i j hij]
    exact hP

theorem foldl_stepJob_pres (P : JobState → Bool) (g : Graph) (j : String)
    (hDec : ∀ ev2 : Evaluator, ev2.graph = g → (∃ kk, (j, kk) ∈ g.jobs) →
      isUndecided (ev2.states j) = true → P (ev2.states j) = true →
      P (decideJob ev2 j) = true)
    (l : List (String × JobKind)) :
    (∀ p, p ∈ l → p ∈ g.jobs) → ∀ ev : Evaluator, ev.graph = g →
      P (ev.states j) = true →
      P ((l.foldl (fun a p => stepJob a p.1) ev).states j) = true := by
  induction l with
  | nil => intro _ ev _ hP; exact hP
  | cons p t ih =>
    intro hl ev hg hP
    rw [List.foldl_cons]
    exact ih (fun x hx => hl x (List.mem_cons_of_mem _ hx)) (stepJob ev p.1)
      (by rw [stepJob_graph]; exact hg)
      (stepJob_pres P g j hDec ev p.1 ⟨p.2, hl p (List.mem_cons_self _ _)⟩ hg hP)

theorem pass_pres (P : JobState → Bool) (g : Graph) (j : String)
    (hDec : ∀ ev2 : Evaluator, ev2.graph = g → (∃ kk, (j, kk) ∈ g.jobs) →
      isUndecided (ev2.states j) = true → P (ev2.states j) = true →
      P (decideJob ev2 j) = true)
    (ev : Evaluator) (hg : ev.graph = g) (hP : P (ev.states j) = true) :
    P ((pass ev).states j) = true := by
  unfold pass
  exact foldl_stepJob_pres P g j hDec ev.graph.jobs
    (by rw [hg]; exact fun p hp => hp) ev hg hP

theorem passIter_pres (P : JobState → Bool) (g : Graph) (j : String)
    (hDec : ∀ ev2 : Evaluator, ev2.graph = g → (∃ kk, (j, kk) ∈ g.jobs) →
      isUndecided (ev2.states j) = true → P (ev2.states j) = true →
      P (decideJob ev2 j) = true)
    (n : Nat) :
    ∀ ev : Evaluator, ev.graph = g → P (ev.states j) = true →
      P ((passIter n ev).states j) = true := by
  induction n with
  | zero => intro ev _ hP; exact hP
  | succ m ih =>
    intro ev hg hP
    rw [passIter]
    exact ih (pass ev) (by rw [pass_graph]; exact hg) (pass_pres P g j hDec ev hg hP)

theorem recompute_pres (P : JobState → Bool) (g : Graph) (j : String)
    (hDec : ∀ ev2 : Evaluator, ev2.graph = g → (∃ kk, (j, kk) ∈ g.jobs) →
      isUndecided (ev2.states j) = true → P (ev2.states j) = true →
      P (decideJob ev2 j) = true)
    (ev : Evaluator) (hg : ev.graph = g) (hP : P (ev.states j) = true) :
    P ((recompute ev).states j) = true :=
  passIter_pres P g j hDec _ ev hg hP

theorem applyEvent_pres (P : JobState → Bool) (g : Graph) (j : String)
    (hReady : ∀ b, P (JobState.ReadyToRun b) = false)
    (hRun : ∀ b, P (JobState.Running b) = false)
    (hUF : P JobState.UpstreamFailed = true)
    (hDec : ∀ ev2 : Evaluator, ev2.graph = g → (∃ kk, (j, kk) ∈ g.jobs) →
      isUndecided (ev2.states j) = true → P (ev2.states j) = true →
      P (decideJob ev2 j) = true)
    (ev : Evaluator) (hg : ev.graph = g) (hP : P (ev.states j) = true) (e : EvAction) :
    (applyEvent ev e).graph = g ∧ P ((applyEvent ev e).states j) = true := by
  cases e with
  | startup =>
    cases hs : ev.started with
    | true => simp [applyEvent, eventStartup, hs]; exact ⟨hg, hP⟩
    | false =>
      simp only [applyEvent, eventStartup, hs, Bool.false_eq_true, if_false]
      constructor
      · rw [recompute_graph]; exact hg
      · exact recompute_pres P g j hDec _ hg hP
  | nowRunning i =>
    cases hs : ev.started with
    | false => simp [applyEvent, eventNowRunning, hs]; exact ⟨hg, hP⟩
    | true =>
      cases hsi : ev.states i with
      | ReadyToRun b =>
        have hij : j ≠ i := by
          intro hc
          rw [hc, hsi, hReady b] at hP
          cases hP
        simp only [applyEvent, eventNowRunning, hs, hsi, Bool.not_true, Bool.false_eq_true,
          if_false]
        exact ⟨hg, by rw [setState_states, if_neg hij]; exact hP⟩
      | Undetermined => simp [applyEvent, eventNowRunning, hs, hsi]; exact ⟨hg, hP⟩
      | Blocked => simp [applyEvent, eventNowRunning, hs, hsi]; exact ⟨hg, hP⟩
      | Running b => simp [applyEvent, eventNowRunning, hs, hsi]; exact ⟨hg, hP⟩
      | Succeeded => simp [applyEvent, eventNowRunning, hs, hsi]; exact ⟨hg, hP⟩
      | NotNeeded => simp [applyEvent, eventNowRunning, hs, hsi]; exact ⟨hg, hP⟩
      | Failed => simp [applyEvent, eventNowRunning, hs, hsi]; exact ⟨hg, hP⟩
      | UpstreamFailed => simp [applyEvent, eventNowRunning, hs, hsi]; exact ⟨hg, hP⟩
  | success i v =>
    cases hs : ev.started with
    | false => simp [applyEvent, eventSuccess, hs]; exact ⟨hg, hP⟩
    | true =>
      cases hsi : ev.states i with
      | Running b =>
        have hij : j ≠ i := by
          intro hc
          rw [hc, hsi, hRun b] at hP
          cases hP
        simp only [applyEvent, eventSuccess, hs, hsi, Bool.not_true, Bool.false_eq_true,
          if_false]
        constructor
        · rw [recompute_graph]; exact hg
        · exact recompute_pres P g j hDec _ hg
            (by rw [setState_states, if_neg hij]; exact hP)
      | Undetermined => simp [applyEvent, eventSuccess, hs, hsi]; exact ⟨hg, hP⟩
      | Blocked => simp [applyEvent, eventSuccess, hs, hsi]; exact ⟨hg, hP⟩
      | ReadyToRun b => simp [applyEvent, eventSuccess, hs, hsi]; exact ⟨hg, hP⟩
      | Succeeded => simp [applyEvent, eventSuccess, hs, hsi]; exact ⟨hg, hP⟩
      | NotNeeded => simp [applyEvent, eventSuccess, hs, hsi]; exact ⟨hg, hP⟩
      | Failed => simp [applyEvent, eventSuccess, hs, hsi]; exact ⟨hg, hP⟩
      | UpstreamFailed => simp [applyEvent, eventSuccess, hs, hsi]; exact ⟨hg, hP⟩
  | failure i =>
    cases hs : ev.started with
    | false => simp [applyEvent, eventFailure, hs]; exact ⟨hg, hP⟩
    | true =>
      cases hsi : ev.states i with
      | Running b =>
        have hij : j ≠ i := by
          intro hc
          rw [hc, hsi, hRun b] at hP
          cases hP
        simp only [applyEvent, eventFailure, hs, hsi, Bool.not_true, Bool.false_eq_true,
          if_false]
        constructor
        · rw [recompute_graph]; exact hg
        · refine recompute_pres P g j hDec _ hg ?_
          show P (failStates ev i j) = true
          unfold failStates
          rw [if_neg hij]
          split
          · exact hUF
          · exact hP
      | Undetermined => simp [applyEvent, eventFailure, hs, hsi]; exact ⟨hg, hP⟩
      | Blocked => simp [applyEvent, eventFailure, hs, hsi]; exact ⟨hg, hP⟩
      | ReadyToRun b => simp [applyEvent, eventFailure, hs, hsi]; exact ⟨hg, hP⟩
      | Succeeded => simp [applyEvent, eventFailure, hs, hsi]; exact ⟨hg, hP⟩
      | NotNeeded => simp [applyEvent, eventFailure, hs, hsi]; exact ⟨hg, hP⟩
      | Failed => simp [applyEvent, eventFailure, hs, hsi]; exact ⟨hg, hP⟩
      | UpstreamFailed => simp [applyEvent, eventFailure, hs, hsi]; exact ⟨hg, hP⟩

theorem decideJob_eph_no_down (ev : Evaluator) (j : String)
    (hk : kindOf ev.graph j = some JobKind.Ephemeral)
    (hd : downstreamsOf ev.graph j = []) :
    ephemeralInertState (decideJob ev j) = true := by
  unfold decideJob
  split
  · rfl
  · split
    · rfl
    · rw [hk]
      cases hq : q ev (gateFuel ev) QK.invalid j <;>
        simp [hq, hd, triAny, ephemeralInertState]

theorem not_mem_ready_of_failed (ev : Evaluator) (d : String)
    (hf : isFailedState (ev.states d) = true) : ¬ d ∈ queryReadyToRun ev := by
  intro hmem
  rw [queryReadyToRun, List.mem_filter] at hmem
  have h2 := hmem.2
  cases hst : ev.states d <;> rw [hst] at hf h2 <;> simp [isFailedState] at hf h2

theorem applyEvents_pres (P : JobState → Bool) (g : Graph) (j : String)
    (hReady : ∀ b, P (JobState.ReadyToRun b) = false)
    (hRun : ∀ b, P (JobState.Running b) = false)
    (hUF : P JobState.UpstreamFailed = true)
    (hDec : ∀ ev2 : Evaluator, ev2.graph = g → (∃ kk, (j, kk) ∈ g.jobs) →
      isUndecided (ev2.states j) = true → P (ev2.states j) = true →
      P (decideJob ev2 j) = true)
    (l : List EvAction) :
    ∀ ev : Evaluator, ev.graph = g → P (ev.states j) = true →
      (applyEvents ev l).graph = g ∧ P ((applyEvents ev l).states j) = true := by
  induction l with
  | nil => intro ev hg hP; exact ⟨hg, hP⟩
  | cons e t ih =>
    intro ev hg hP
    have h1 := applyEvent_pres P g j hReady hRun hUF hDec ev hg hP e
    exact ih (applyEvent ev e) h1.1 h1.2

/-- C2: a running ephemeral that was retriggered by downstream demand
(scheduling flag `false`: it was not itself invalidated) and has a prior
recorded value must reproduce that value: reporting success with a
different value returns `EphemeralChangedOutput`, reporting the prior
value returns no error. -/
theorem c2_ephemeral_changed_output (ev : Evaluator) (j v prior : String)
    (hst : ev.started = true)
    (hrun : ev.states j = JobState.Running false)
    (hk : kindOf ev.graph j = some JobKind.Ephemeral)
    (hp : hGet ev.history (HKey.node j) = some prior) :
    (v ≠ prior → (eventSuccess ev j v).2 = some PPGEvaluatorError.EphemeralChangedOutput) ∧
    (v = prior → (eventSuccess ev j v).2 = none) := by
  constructor <;> intro hv <;> simp [eventSuccess, hst, hrun, hk, hp, hv]

/-- C2, witness: on a concrete retriggered ephemeral with recorded value
`old`, reporting `new` errors and reporting `old` does not. -/
theorem c2_ephemeral_changed_output_witness :
    (eventSuccess contractWitnessEv "TA" "new").2
      = some PPGEvaluatorError.EphemeralChangedOutput ∧
    (eventSuccess contractWitnessEv "TA" "old").2 = none :=
  ⟨(c2_ephemeral_changed_output contractWitnessEv "TA" "new" "old" rfl rfl (by decide)
      rfl).1 (by decide),
   (c2_ephemeral_changed_output contractWitnessEv "TA" "old" "old" rfl rfl (by decide)
      rfl).2 rfl⟩

/-- C3: after a failure event every job reachable from the failed job
along downstream edges is Failed or UpstreamFailed, and stays so under
every later event: it never appears in the ready snapshot and never
transitions to Running. -/
theorem c3_failure_closure :
    ∀ (ev : Evaluator) (j : String) (ev2 : Evaluator),
      eventFailure ev j = Except.ok ev2 →
      ∀ d, d ∈ reachableFrom ev.graph j →
        ∀ evs : List EvAction,
          isFailedState ((applyEvents ev2 evs).states d) = true ∧
          ¬ d ∈ queryReadyToRun (applyEvents ev2 evs) ∧
          ∀ b, (applyEvents ev2 evs).states d ≠ JobState.Running b := by
  intro ev j ev2 hok d hd evs
  have hDec : ∀ ev3 : Evaluator, ev3.graph = ev.graph → (∃ kk, (d, kk) ∈ ev.graph.jobs) →
      isUndecided (ev3.states d) = true → isFailedState (ev3.states d) = true →
      isFailedState (decideJob ev3 d) = true := by
    intro ev3 _ _ hu hP3
    cases hst : ev3.states d <;> rw [hst] at hu hP3 <;>
      simp [isUndecided, isFailedState] at hu hP3
  cases hs : ev.started with
  | false => rw [eventFailure, hs] at hok; cases hok
  | true =>
    cases hsj : ev.states j with
    | Running b =>
      rw [eventFailure, hs, hsj] at hok
      simp only [Bool.not_true, Bool.false_eq_true, if_false, Except.ok.injEq] at hok
      have hfd : isFailedState (failStates ev j d) = true := by
        unfold failStates
        by_cases hdj : d = j
        · rw [if_pos hdj]; rfl
        · rw [if_neg hdj]
          by_cases hcd : ((reachableFrom ev.graph j).contains d
              && !(ev.states d = JobState.Failed)) = true
          · rw [if_pos hcd]; rfl
          · rw [if_neg hcd]
            have hcont : (reachableFrom ev.graph j).contains d = true := by
              exact List.elem_iff.mpr hd
            rw [Bool.and_eq_true, hcont] at hcd
            simp only [true_and, Bool.not_eq_true', Bool.not_eq_false] at hcd
            rw [of_decide_eq_true hcd]
            rfl
      have hP0 : isFailedState (ev2.states d) = true := by
        rw [← hok]
        exact recompute_pres isFailedState ev.graph d hDec _ rfl hfd
      have hg2 : ev2.graph = ev.graph := by
        rw [← hok, recompute_graph]
      have hfacts := applyEvents_pres isFailedState ev.graph d
        (fun _ => rfl) (fun _ => rfl) rfl hDec evs ev2 hg2 hP0
      refine ⟨hfacts.2, not_mem_ready_of_failed _ _ hfacts.2, ?_⟩
      intro b hc
      rw [hc] at hfacts
      simp [isFailedState] at hfacts
    | Undetermined => rw [eventFailure, hs, hsj] at hok; cases hok
    | Blocked => rw [eventFailure, hs, hsj] at hok; cases hok
    | ReadyToRun b => rw [eventFailure, hs, hsj] at hok; cases hok
    | Succeeded => rw [eventFailure, hs, hsj] at hok; cases hok
    | NotNeeded => rw [eventFailure, hs, hsj] at hok; cases hok
    | Failed => rw [eventFailure, hs, hsj] at hok; cases hok
    | UpstreamFailed => rw [eventFailure, hs, hsj] at hok; cases hok

set_option maxHeartbeats 1600000 in
/-- C3, witness: failing `A` in the concrete two-job evaluator leaves
its downstream `B` upstream-failed. -/
theorem c3_failure_closure_witness :
    isFailedState ((applyEvents (applyEvent failureWitnessEv (EvAction.failure "A"))
      []).states "B") = true :=
  (c3_failure_closure failureWitnessEv "A"
    (applyEvent failureWitnessEv (EvAction.failure "A")) rfl "B" (by decide) []).1

theorem applyEvent_graph (ev : Evaluator) (e : EvAction) :
    (applyEvent ev e).graph = ev.graph := by
  cases e with
  | startup =>
    cases hs : ev.started with
    | true => simp [applyEvent, eventStartup, hs]
    | false =>
      simp only [applyEvent, eventStartup, hs, Bool.false_eq_true, if_false]
      rw [recompute_graph]
  | nowRunning i =>
    cases hs : ev.started with
    | false => simp [applyEvent, eventNowRunning, hs]
    | true =>
      cases hsi : ev.states i <;>
        simp [applyEvent, eventNowRunning, hs, hsi, setState]
  | success i v =>
    cases hs : ev.started with
    | false => simp [applyEvent, eventSuccess, hs]
    | true =>
      cases hsi : ev.states i <;>
        simp [applyEvent, eventSuccess, hs, hsi, setState, recompute_graph]
  | failure i =>
    cases hs : ev.started with
    | false => simp [applyEvent, eventFailure, hs]
    | true =>
      cases hsi : ev.states i <;>
        simp [applyEvent, eventFailure, hs, hsi, recompute_graph]

theorem applyEvent_frame (g : Graph) (k : HKey) (hk : keyDownstreamSafeB g k = true)
    (ev : Evaluator) (e : EvAction)
    (hg : ev.graph = g)
    (hinert : ∀ x, kindOf g x = none → unregisteredInert (ev.states x) = true) :
    hGet ((applyEvent ev e).history) k = hGet ev.history k := by
  cases e with
  | startup =>
    cases hs : ev.started with
    | true => simp [applyEvent, eventStartup, hs]
    | false =>
      simp only [applyEvent, eventStartup, hs, Bool.false_eq_true, if_false]
      rw [recompute_history]
  | nowRunning i =>
    cases hs : ev.started with
    | false => simp [applyEvent, eventNowRunning, hs]
    | true =>
      cases hsi : ev.states i <;>
        simp [applyEvent, eventNowRunning, hs, hsi, setState]
  | success i v =>
    cases hs : ev.started with
    | false => simp [applyEvent, eventSuccess, hs]
    | true =>
      cases hsi : ev.states i with
      | Running b =>
        simp only [applyEvent, eventSuccess, hs, hsi, Bool.not_true, Bool.false_eq_true,
          if_false]
        rw [recompute_history]
        show hGet (recordSuccess ev.graph ev.history i v) k = hGet ev.history k
        have hreg : ¬ kindOf g i = none := by
          intro hc
          have := hinert i hc
          rw [hsi] at this
          cases this
        apply hGet_recordSuccess_other
        · intro m hm
          intro hmi
          cases k with
          | node m2 =>
            have : (kindOf g m2).isNone = true := hk
            rw [HKey.node.injEq] at hm
            rw [hm, hmi] at this
            rw [Option.isNone_iff_eq_none] at this
            exact hreg this
          | edge u2 d2 => cases hm
        · intro u2 d2 hm
          intro hdi
          cases k with
          | node m2 => cases hm
          | edge u3 d3 =>
            have : (kindOf g d3).isNone = true := hk
            rw [HKey.edge.injEq] at hm
            rw [hm.2, hdi] at this
            rw [Option.isNone_iff_eq_none] at this
            exact hreg this
      | Undetermined => simp [applyEvent, eventSuccess, hs, hsi]
      | Blocked => simp [applyEvent, eventSuccess, hs, hsi]
      | ReadyToRun b => simp [applyEvent, eventSuccess, hs, hsi]
      | Succeeded => simp [applyEvent, eventSuccess, hs, hsi]
      | NotNeeded => simp [applyEvent, eventSuccess, hs, hsi]
      | Failed => simp [applyEvent, eventSuccess, hs, hsi]
      | UpstreamFailed => simp [applyEvent, eventSuccess, hs, hsi]
  | failure i =>
    cases hs : ev.started with
    | false => simp [applyEvent, eventFailure, hs]
    | true =>
      cases hsi : ev.states i <;>
        simp [applyEvent, eventFailure, hs, hsi, recompute_history]

/-- C6 (amended): keys out of reach of every success event are carried
into the new history verbatim: node keys of unregistered jobs and edge
keys whose downstream job is unregistered.  (An edge key whose
downstream is registered may instead be rewritten or dropped when that
job succeeds: see the counterexample.) -/
theorem c6_history_frame :
    ∀ (g : Graph) (s : Strategy) (h0 : History) (evs : List EvAction) (k : HKey),
      keyDownstreamSafeB g k = true →
      hGet (newHistory (applyEvents (mkEvaluator g s h0) evs)) k = hGet h0 k := by
  intro g s h0 evs k hk
  suffices hgen : ∀ (l : List EvAction) (ev : Evaluator), ev.graph = g →
      (∀ x, kindOf g x = none → unregisteredInert (ev.states x) = true) →
      hGet ((applyEvents ev l).history) k = hGet ev.history k by
    exact hgen evs (mkEvaluator g s h0) rfl (fun x _ => rfl)
  intro l
  induction l with
  | nil => intro ev _ _; rfl
  | cons e t ih =>
    intro ev hg hinert
    show hGet ((applyEvents (applyEvent ev e) t).history) k = hGet ev.history k
    rw [ih (applyEvent ev e) (by rw [applyEvent_graph]; exact hg)
      (fun x hx =>
        (applyEvent_pres unregisteredInert g x (fun _ => rfl) (fun _ => rfl) rfl
          (fun ev2 _ hmem _ _ => by
            obtain ⟨kk, hkk⟩ := hmem
            have := kindOf_isSome_of_mem g.jobs x kk hkk
            rw [show ((g.jobs.find? fun p => p.1 = x).map (·.2)) = kindOf g x from rfl,
              hx] at this
            cases this)
          ev hg (hinert x hx) e).2),
      applyEvent_frame g k hk ev e hg hinert]

/-- C6 (amended), witness: a node key of an unregistered job survives a
run that erases a stale edge key. -/
theorem c6_history_frame_witness :
    hGet (newHistory (applyEvents (mkEvaluator straySingletonGraph (testingStrategy [])
      [(HKey.node "Z", "zz")]) strayEdgeEvents)) (HKey.node "Z")
      = hGet [(HKey.node "Z", "zz")] (HKey.node "Z") :=
  c6_history_frame straySingletonGraph (testingStrategy []) [(HKey.node "Z", "zz")]
    strayEdgeEvents (HKey.node "Z") (by decide)

set_option maxHeartbeats 16000000 in
/-- C7: a recorded input edge whose upstream has disappeared from the
job's upstream set invalidates the job: rule 5 fires in the predictive
invalidation query, the decision predicate schedules an Output job
whose upstreams settled, and concretely, rerunning the
`{A: Always → C: Output}` graph with only `C` registered reruns `C`
(and `A` of course does not run again). -/
theorem c7_lost_input_forces_run :
    (∀ (ev : Evaluator) (j : String) (f : Nat),
      shrankB ev j = true → q ev (f + 1) QK.invalid j = Tri.yes) ∧
    (∀ (ev : Evaluator) (j : String),
      shrankB ev j = true → upstreamsFailedB ev j = false → upstreamsDoneB ev j = true →
      kindOf ev.graph j = some JobKind.Output →
      decideJob ev j = JobState.ReadyToRun true) ∧
    loosingInputCounters = some (1, 2) := by
  refine ⟨?_, ?_, by decide⟩
  · intro ev j f hsh
    simp [q, hsh]
  · intro ev j hsh hfail hdone hkind
    have hq : q ev (gateFuel ev) QK.invalid j = Tri.yes := by
      show q ev (4 * ev.graph.jobs.length + 3 + 1) QK.invalid j = Tri.yes
      simp [q, hsh]
    unfold decideJob
    rw [hfail, hdone, hkind]
    simp only [Bool.false_eq_true, if_false, Bool.not_true, hq]
    split <;> rfl

/-- C7, witness: with a stale edge key recorded for `C` and no upstream
left, the decision predicate schedules `C`. -/
theorem c7_lost_input_forces_run_witness :
    decideJob (mkEvaluator loosingInputGraphB (testingStrategy [])
      [(HKey.edge "A" "C", "x")]) "C" = JobState.ReadyToRun true :=
  c7_lost_input_forces_run.2.1 _ "C" (by decide) (by decide) (by decide) (by decide)

theorem runLoop_ok_finished (r : Runner) (jtf : List String) :
    ∀ (c : Nat) (ls out : LoopState),
      runLoop r jtf c ls = Except.ok out → isFinished out.ev = true := by
  intro c
  induction c with
  | zero =>
    intro ls out h
    rw [runLoop] at h
    by_cases hf : isFinished ls.ev = true
    · rw [if_pos hf] at h
      cases h
      exact hf
    · rw [if_neg hf] at h
      cases h
  | succ c2 ih =>
    intro ls out h
    rw [runLoop] at h
    by_cases hf : isFinished ls.ev = true
    · rw [if_pos hf] at h
      cases h
      exact hf
    · rw [if_neg hf] at h
      simp only [bind, Except.bind] at h
      split at h
      · cases h
      · by_cases hc : c2 = 0
        · rw [if_pos hc] at h; cases h
        · rw [if_neg hc] at h
          exact ih _ out h

theorem roundIter_succ_of_processRound (r : Runner) (jtf : List String) (k : Nat)
    (ls ls1 : LoopState) (hpr : processRound r jtf ls = Except.ok ls1) :
    roundIter r jtf (k + 1) ls = roundIter r jtf k ls1 := by
  rw [roundIter]
  simp only [bind, Except.bind, hpr]

theorem runLoop_nesting_exhausted (r : Runner) (jtf : List String) :
    ∀ (c : Nat) (ls : LoopState), 1 ≤ c →
      (∀ k, k ≤ c → ∃ lsk, roundIter r jtf k ls = Except.ok lsk ∧
        (k < c → isFinished lsk.ev = false)) →
      runLoop r jtf c ls = Except.error (nestingError r) := by
  intro c
  induction c with
  | zero => intro ls h1; cases h1
  | succ c2 ih =>
    intro ls _ h
    have hunfin : isFinished ls.ev = false := by
      obtain ⟨ls0, h0, hu⟩ := h 0 (Nat.zero_le _)
      rw [roundIter] at h0
      cases h0
      exact hu (Nat.succ_pos _)
    have hpr : ∃ ls1, processRound r jtf ls = Except.ok ls1 := by
      obtain ⟨ls1, h1, _⟩ := h 1 (Nat.succ_le_succ (Nat.zero_le _))
      cases hpr2 : processRound r jtf ls with
      | error e =>
        rw [roundIter] at h1
        simp only [bind, Except.bind, hpr2] at h1
        cases h1
      | ok y => exact ⟨y, rfl⟩
    obtain ⟨ls1, hpr⟩ := hpr
    rw [runLoop, if_neg (by rw [hunfin]; exact Bool.false_ne_true)]
    simp only [bind, Except.bind, hpr]
    by_cases hc : c2 = 0
    · rw [if_pos hc]
    · rw [if_neg hc]
      refine ih ls1 (Nat.one_le_iff_ne_zero.mpr hc) ?_
      intro k hk
      obtain ⟨lsk, hk1, hk2⟩ := h (k + 1) (Nat.succ_le_succ hk)
      rw [roundIter_succ_of_processRound r jtf k ls ls1 hpr] at hk1
      exact ⟨lsk, hk1, fun hlt => hk2 (Nat.succ_lt_succ hlt)⟩

set_option maxHeartbeats 1600000 in
/-- C9: `TestGraphRunner::run` cannot loop forever: `TestGraphRunner::new`
allots 250 rounds, the loop yields a finished evaluator whenever it
returns ok, a successful `run` call yields a finished evaluator, and if
every round up to the allowance succeeds without finishing, the loop
returns the APIError carrying the nesting allowance in its message. -/
theorem c9_runner_nesting :
    (∀ g : Graph, (runnerNew g).allowedNesting = 250) ∧
    (∀ r : Runner, nestingError r = PPGEvaluatorError.APIError
      ("run out of room, you nested them more than " ++ toString r.allowedNesting
        ++ " deep?")) ∧
    (∀ (r : Runner) (jtf : List String) (c : Nat) (ls out : LoopState),
      runLoop r jtf c ls = Except.ok out → isFinished out.ev = true) ∧
    (∀ (r : Runner) (jtf : List String) (r2 : Runner) (ev2 : Evaluator),
      runnerRun r jtf = Except.ok (r2, ev2) → isFinished ev2 = true) ∧
    (∀ (r : Runner) (jtf : List String) (c : Nat) (ls : LoopState), 1 ≤ c →
      (∀ k, k ≤ c → ∃ lsk, roundIter r jtf k ls = Except.ok lsk ∧
        (k < c → isFinished lsk.ev = false)) →
      runLoop r jtf c ls = Except.error (nestingError r)) := by
  refine ⟨fun _ => rfl, fun _ => rfl, fun r jtf c ls out h => runLoop_ok_finished r jtf c ls out h, ?_, fun r jtf c ls h1 h2 => runLoop_nesting_exhausted r jtf c ls h1 h2⟩
  intro r jtf r2 ev2 h
  rw [runnerRun] at h
  simp only [bind, Except.bind] at h
  cases hS : eventStartup (mkEvaluator r.setupGraph (testingStrategy r.alreadyDone)
      r.history) with
  | error e => simp only [hS] at h; cases h
  | ok ev1 =>
    simp only [hS] at h
    cases hL : runLoop r jtf r.allowedNesting
        { ev := ev1, counters := r.runCounters, order := [] } with
    | error e => simp only [hL] at h; cases h
    | ok ls =>
      simp only [hL] at h
      by_cases hV : verifyOrderWasTopological r.setupGraph ls.order = true
      · rw [if_pos hV] at h
        have hfin := runLoop_ok_finished r jtf r.allowedNesting _ ls hL
        simp only [pure, Except.pure, Except.ok.injEq, Prod.mk.injEq] at h
        rw [← h.2]
        exact hfin
      · rw [if_neg hV] at h
        cases h

/-- C9, witness: a loop state that never finishes and never offers a job
exhausts a nesting allowance of 1 and yields the nesting error. -/
theorem c9_runner_nesting_witness :
    runLoop (runnerNew straySingletonGraph) [] 1 stuckLoopState
      = Except.error (nestingError (runnerNew straySingletonGraph)) := by
  refine c9_runner_nesting.2.2.2.2 (runnerNew straySingletonGraph) [] 1 stuckLoopState
    (by decide) ?_
  intro k hk
  interval_cases k
  · exact ⟨stuckLoopState, rfl, fun _ => rfl⟩
  · exact ⟨stuckLoopState, rfl, fun hlt => absurd hlt (by decide)⟩

/-! Characterisation lemmas feeding the round-trip analysis. -/

theorem mem_downstreams_iff (g : Graph) (j d : String) :
    d ∈ downstreamsOf g j ↔ (j, d) ∈ g.edges := by
  constructor
  · intro h
    rw [downstreamsOf, List.mem_map] at h
    obtain ⟨e, he, hed⟩ := h
    rw [List.mem_filter] at he
    have h1 : e.1 = j := by simpa using he.2
    have : e = (j, d) := by
      rw [← h1, ← hed]
    rw [← this]
    exact he.1
  · intro h
    rw [downstreamsOf, List.mem_map]
    exact ⟨(j, d), List.mem_filter.mpr ⟨h, by simp⟩, rfl⟩

theorem mem_upstreams_iff (g : Graph) (u d : String) :
    u ∈ upstreamsOf g d ↔ (u, d) ∈ g.edges := by
  constructor
  · intro h
    rw [upstreamsOf, List.mem_map] at h
    obtain ⟨e, he, heu⟩ := h
    rw [List.mem_filter] at he
    have h2 : e.2 = d := by simpa using he.2
    have : e = (u, d) := by
      rw [← h2, ← heu]
    rw [← this]
    exact he.1
  · intro h
    rw [upstreamsOf, List.mem_map]
    exact ⟨(u, d), List.mem_filter.mpr ⟨h, by simp⟩, rfl⟩

theorem mem_downstreams_iff_mem_upstreams (g : Graph) (j d : String) :
    d ∈ downstreamsOf g j ↔ j ∈ upstreamsOf g d := by
  rw [mem_downstreams_iff, mem_upstreams_iff]

theorem triAny_eq_yes_iff (l : List String) (f : String → Tri) :
    triAny l f = Tri.yes ↔ ∃ x, x ∈ l ∧ f x = Tri.yes := by
  unfold triAny
  by_cases h1 : (l.any fun x => f x = Tri.yes) = true
  · rw [if_pos h1]
    rw [List.any_eq_true] at h1
    obtain ⟨x, hx, hfx⟩ := h1
    exact iff_of_true rfl ⟨x, hx, of_decide_eq_true hfx⟩
  · rw [if_neg h1]
    have hnot : ¬ ∃ x, x ∈ l ∧ f x = Tri.yes := by
      intro ⟨x, hx, hfx⟩
      exact h1 (List.any_eq_true.mpr ⟨x, hx, decide_eq_true hfx⟩)
    by_cases h2 : (l.any fun x => f x = Tri.unknown) = true
    · rw [if_pos h2]
      exact iff_of_false (by intro hc; cases hc) hnot
    · rw [if_neg h2]
      exact iff_of_false (by intro hc; cases hc) hnot

theorem triAny_eq_no_iff (l : List String) (f : String → Tri) :
    triAny l f = Tri.no ↔ ∀ x, x ∈ l → f x = Tri.no := by
  unfold triAny
  by_cases h1 : (l.any fun x => f x = Tri.yes) = true
  · rw [if_pos h1]
    rw [List.any_eq_true] at h1
    obtain ⟨x, hx, hfx⟩ := h1
    refine iff_of_false (by intro hc; cases hc) ?_
    intro hall
    rw [hall x hx] at hfx
    cases of_decide_eq_true hfx
  · rw [if_neg h1]
    by_cases h2 : (l.any fun x => f x = Tri.unknown) = true
    · rw [if_pos h2]
      rw [List.any_eq_true] at h2
      obtain ⟨x, hx, hfx⟩ := h2
      refine iff_of_false (by intro hc; cases hc) ?_
      intro hall
      rw [hall x hx] at hfx
      cases of_decide_eq_true hfx
    · rw [if_neg h2]
      refine iff_of_true rfl ?_
      intro x hx
      cases hfx : f x with
      | no => rfl
      | yes =>
        exact absurd (List.any_eq_true.mpr ⟨x, hx, decide_eq_true hfx⟩) h1
      | unknown =>
        exact absurd (List.any_eq_true.mpr ⟨x, hx, decide_eq_true hfx⟩) h2

theorem hGet_isSome_iff (h : History) (k : HKey) :
    (hGet h k).isSome = true ↔ ∃ v, (k, v) ∈ h := by
  induction h with
  | nil => simp [hGet]
  | cons p t ih =>
    obtain ⟨k1, w⟩ := p
    by_cases hk : k1 = k
    · subst hk
      simp [hGet]
    · rw [show hGet ((k1, w) :: t) k = hGet t k from by rw [hGet, if_neg hk]]
      rw [ih]
      constructor
      · intro ⟨v, hv⟩
        exact ⟨v, List.mem_cons_of_mem _ hv⟩
      · intro ⟨v, hv⟩
        rcases List.mem_cons.mp hv with hh | hh
        · cases hh
          exact absurd rfl hk
        · exact ⟨v, hh⟩

theorem shrankB_iff (ev : Evaluator) (j : String) :
    shrankB ev j = true ↔
      ∃ u, (hGet ev.history (HKey.edge u j)).isSome = true ∧
        ¬ u ∈ upstreamsOf ev.graph j := by
  unfold shrankB
  rw [List.any_eq_true]
  constructor
  · intro ⟨kv, hkv, hp⟩
    obtain ⟨k1, w⟩ := kv
    cases k1 with
    | node i => simp at hp
    | edge u d =>
      simp only [Bool.and_eq_true, decide_eq_true_eq] at hp
      obtain ⟨hdj, hu⟩ := hp
      subst hdj
      refine ⟨u, (hGet_isSome_iff _ _).mpr ⟨w, hkv⟩, ?_⟩
      intro hmem
      have hx : (upstreamsOf ev.graph d).contains u = true := List.elem_iff.mpr hmem
      rw [hx] at hu
      cases hu
  · intro ⟨u, hsome, hmem⟩
    obtain ⟨v, hv⟩ := (hGet_isSome_iff _ _).mp hsome
    have hcon : (upstreamsOf ev.graph j).contains u = false := by
      cases hc : (upstreamsOf ev.graph j).contains u
      · rfl
      · exact absurd (List.elem_iff.mp hc) hmem
    refine ⟨(HKey.edge u j, v), hv, ?_⟩
    simp [hcon]
    exact hmem

theorem upstreamsFailedB_eq_false (ev : Evaluator)
    (hF0 : ∀ x, isFailedState (ev.states x) = false) (x : String) :
    upstreamsFailedB ev x = false := by
  cases hc : upstreamsFailedB ev x
  · rfl
  · rw [upstreamsFailedB, List.any_eq_true] at hc
    obtain ⟨u, hu, hfu⟩ := hc
    rw [hF0 u] at hfu
    cases hfu

theorem q_valueKnown_of_terminalOk (ev : Evaluator) (f : Nat) (u : String)
    (h : isTerminalOk (ev.states u) = true) :
    q ev (f + 1) QK.valueKnown u = Tri.yes := by
  cases hs : ev.states u <;> rw [hs] at h <;> simp [isTerminalOk] at h <;> simp [q, hs]

theorem q_invalid_facts (ev : Evaluator) (j : String) (f : Nat)
    (hdone : upstreamsDoneB ev j = true)
    (hne : q ev (f + 2) QK.invalid j ≠ Tri.yes) :
    shrankB ev j = false ∧ newInputB ev j = false ∧
    (∀ u p c, u ∈ upstreamsOf ev.graph j → prevOf ev u j = some p → currOf ev u = some c →
      ev.strat.isHistoryAltered u j p c = false) := by
  have hsh : shrankB ev j = false := by
    cases hsh2 : shrankB ev j
    · rfl
    · exact absurd (by simp [q, hsh2]) hne
  have hni : newInputB ev j = false := by
    cases hni2 : newInputB ev j
    · rfl
    · exact absurd (by simp [q, hni2]) hne
  refine ⟨hsh, hni, ?_⟩
  intro u p c hu hp hc
  cases halt : ev.strat.isHistoryAltered u j p c
  · rfl
  · exfalso
    apply hne
    have hterm : isTerminalOk (ev.states u) = true := by
      rw [upstreamsDoneB, List.all_eq_true] at hdone
      exact hdone u hu
    simp only [q, hsh, hni, Bool.or_self, Bool.false_eq_true, if_false]
    rw [triAny_eq_yes_iff]
    refine ⟨u, hu, ?_⟩
    simp only [hp, hc, halt, if_true]
    cases hs : ev.states u <;> rw [hs] at hterm <;>
      simp [isTerminalOk] at hterm <;> simp [hs]

theorem q_invalid_ne_yes (ev : Evaluator) (j : String)
    (hsh : shrankB ev j = false) (hni : newInputB ev j = false)
    (halt : ∀ u p c, u ∈ upstreamsOf ev.graph j → prevOf ev u j = some p →
      currOf ev u = some c → ev.strat.isHistoryAltered u j p c = false) :
    ∀ f, q ev f QK.invalid j ≠ Tri.yes := by
  intro f
  cases f with
  | zero => simp [q]
  | succ f2 =>
    simp only [q, hsh, hni, Bool.or_self, Bool.false_eq_true, if_false]
    intro hc
    rw [triAny_eq_yes_iff] at hc
    obtain ⟨u, hu, hfu⟩ := hc
    cases hp : prevOf ev u j with
    | none => simp [hp] at hfu
    | some p =>
      simp only [hp] at hfu
      split at hfu
      · cases hcu : currOf ev u with
        | none => simp [hcu] at hfu
        | some c => simp [hcu, halt u p c hu hp hcu] at hfu
      · cases hfu

theorem hGet_eraseEdgesTo_self (h : History) (j u : String) :
    hGet (hEraseEdgesTo h j) (HKey.edge u j) = none := by
  induction h with
  | nil => rfl
  | cons p t ih =>
    obtain ⟨k1, w⟩ := p
    cases k1 with
    | node i =>
      show hGet ((HKey.node i, w) :: hEraseEdgesTo t j) (HKey.edge u j) = none
      rw [hGet, if_neg (by intro hc; cases hc), ih]
    | edge u2 d =>
      by_cases hd : d = j
      · subst hd
        show hGet (if d = d then hEraseEdgesTo t d else _) (HKey.edge u d) = none
        rw [if_pos rfl, ih]
      · show hGet (if d = j then _ else (HKey.edge u2 d, w) :: hEraseEdgesTo t j)
          (HKey.edge u j) = none
        rw [if_neg hd, hGet, if_neg (by intro hc; cases hc; exact hd rfl), ih]

theorem foldl_edgeWrite_node (j : String) (l : List String) :
    ∀ (h0 : History) (m : String),
      hGet (l.foldl (fun acc u =>
        hSet acc (HKey.edge u j) ((hGet acc (HKey.node u)).getD "")) h0) (HKey.node m)
        = hGet h0 (HKey.node m) := by
  induction l with
  | nil => intro h0 m; rfl
  | cons u t ih =>
    intro h0 m
    rw [List.foldl_cons, ih, hGet_hSet_ne _ _ _ _ (by intro hc; cases hc)]

theorem foldl_edgeWrite_edge (j : String) (l : List String) :
    ∀ (h0 : History) (u : String),
      hGet (l.foldl (fun acc u2 =>
        hSet acc (HKey.edge u2 j) ((hGet acc (HKey.node u2)).getD "")) h0) (HKey.edge u j)
        = if u ∈ l then some ((hGet h0 (HKey.node u)).getD "")
          else hGet h0 (HKey.edge u j) := by
  induction l with
  | nil => intro h0 u; rw [List.foldl_nil, if_neg (by intro hc; cases hc)]
  | cons u2 t ih =>
    intro h0 u
    rw [List.foldl_cons, ih]
    have hnode : hGet (hSet h0 (HKey.edge u2 j) ((hGet h0 (HKey.node u2)).getD ""))
        (HKey.node u) = hGet h0 (HKey.node u) :=
      hGet_hSet_ne _ _ _ _ (by intro hc; cases hc)
    by_cases huu : u = u2
    · subst huu
      rw [hnode, hGet_hSet_self, ite_self, if_pos (List.mem_cons_self _ _)]
    · have hedge : hGet (hSet h0 (HKey.edge u2 j) ((hGet h0 (HKey.node u2)).getD ""))
          (HKey.edge u j) = hGet h0 (HKey.edge u j) :=
        hGet_hSet_ne _ _ _ _ (by intro hc; cases hc; exact huu rfl)
      rw [hnode, hedge]
      by_cases hut : u ∈ t
      · rw [if_pos hut, if_pos (List.mem_cons_of_mem _ hut)]
      · have hnm : u ∉ u2 :: t := by
          intro hc
          rcases List.mem_cons.mp hc with hh | hh
          · exact huu hh
          · exact hut hh
        rw [if_neg hut, if_neg hnm]

theorem hGet_recordSuccess_node (g : Graph) (h : History) (j v : String) (m : String) :
    hGet (recordSuccess g h j v) (HKey.node m)
      = if m = j then some v else hGet h (HKey.node m) := by
  rw [recordSuccess, foldl_edgeWrite_node]
  by_cases hm : m = j
  · subst hm
    rw [if_pos rfl, hGet_hSet_self]
  · rw [if_neg hm, hGet_hSet_ne _ _ _ _ (by intro hc; cases hc; exact hm rfl),
      hGet_eraseEdgesTo_of_ne _ _ _ (by intro u2 hc; cases hc)]

theorem hGet_recordSuccess_edge_to (g : Graph) (h : History) (j v u : String) :
    hGet (recordSuccess g h j v) (HKey.edge u j)
      = if u ∈ upstreamsOf g j then
          some ((if u = j then some v else hGet h (HKey.node u)).getD "")
        else none := by
  rw [recordSuccess, foldl_edgeWrite_edge]
  have hbase : ∀ m, hGet (hSet (hEraseEdgesTo h j) (HKey.node j) v) (HKey.node m)
      = if m = j then some v else hGet h (HKey.node m) := by
    intro m
    by_cases hm : m = j
    · subst hm
      rw [if_pos rfl, hGet_hSet_self]
    · rw [if_neg hm, hGet_hSet_ne _ _ _ _ (by intro hc; cases hc; exact hm rfl),
        hGet_eraseEdgesTo_of_ne _ _ _ (by intro u2 hc; cases hc)]
  by_cases hu : u ∈ upstreamsOf g j
  · rw [if_pos hu, if_pos hu, hbase]
  · rw [if_neg hu, if_neg hu,
      hGet_hSet_ne _ _ _ _ (by intro hc; cases hc), hGet_eraseEdgesTo_self]

theorem undecided_downstream (ev : Evaluator)
    (hF1 : ∀ x, isUndecided (ev.states x) = false → upstreamsDoneB ev x = true)
    (j d : String) (hd : d ∈ downstreamsOf ev.graph j)
    (hund : isUndecided (ev.states j) = true) :
    isUndecided (ev.states d) = true := by
  by_contra hc
  have hdone := hF1 d (by simpa using hc)
  rw [upstreamsDoneB, List.all_eq_true] at hdone
  have hterm := hdone j ((mem_downstreams_iff_mem_upstreams ev.graph j d).mp hd)
  cases hsj : ev.states j <;> rw [hsj] at hund hterm <;>
    simp [isUndecided, isTerminalOk] at hund hterm

theorem ephDemands_exists_downstream (g : Graph) (d : String)
    (h : EphDemandsAlways g d) : ∃ x, x ∈ downstreamsOf g d := by
  cases h with
  | direct _ d2 hd2 _ => exact ⟨d2, hd2⟩
  | chain _ d2 hd2 _ _ => exact ⟨d2, hd2⟩

theorem demand_ne_no (ev : Evaluator)
    (hF0 : ∀ x, isFailedState (ev.states x) = false)
    (hF1 : ∀ x, isUndecided (ev.states x) = false → upstreamsDoneB ev x = true) :
    ∀ j, EphDemandsAlways ev.graph j → isUndecided (ev.states j) = true →
      ∀ f, triAny (downstreamsOf ev.graph j) (fun x => q ev f QK.willRun x) ≠ Tri.no := by
  intro j hder
  induction hder with
  | direct j d hd hk =>
    intro hund f hno
    rw [triAny_eq_no_iff] at hno
    have hdno := hno d hd
    have hdund := undecided_downstream ev hF1 j d hd hund
    cases f with
    | zero => simp [q] at hdno
    | succ f2 =>
      have hfail := upstreamsFailedB_eq_false ev hF0 d
      cases hsd : ev.states d <;> rw [hsd] at hdund <;>
        simp [isUndecided] at hdund <;>
        simp [q, hsd, hfail, hk] at hdno
  | chain j d hd hk hder2 ih =>
    intro hund f hno
    rw [triAny_eq_no_iff] at hno
    have hdno := hno d hd
    have hdund := undecided_downstream ev hF1 j d hd hund
    cases f with
    | zero => simp [q] at hdno
    | succ f2 =>
      have hfail := upstreamsFailedB_eq_false ev hF0 d
      obtain ⟨d2, hd2⟩ := ephDemands_exists_downstream ev.graph d hder2
      have hsurv : ((downstreamsOf ev.graph d).any
          fun x => !isFailedState (ev.states x)) = true := by
        rw [List.any_eq_true]
        exact ⟨d2, hd2, by rw [hF0 d2]; rfl⟩
      cases hsd : ev.states d <;> rw [hsd] at hdund <;>
        simp only [isUndecided] at hdund <;> try cases hdund
      all_goals (
        simp only [q, hsd, hfail, hk, Bool.false_eq_true, if_false] at hdno
        cases hq : q ev f2 QK.invalid d <;> simp only [hq] at hdno
        · rw [hsurv] at hdno
          cases hdno
        · exact ih (by rw [hsd]; rfl) f2 hdno
        · cases hdno)

theorem stepJob_of_undecided (ev : Evaluator) (i : String)
    (h : isUndecided (ev.states i) = true) :
    stepJob ev i = setState ev i (decideJob ev i) := by
  rw [stepJob, if_pos h]

theorem gateFuel_eq (ev : Evaluator) :
    gateFuel ev = 4 * ev.graph.jobs.length + 2 + 2 := by
  rw [gateFuel]

theorem upstreamsDoneB_mono (ev ev' : Evaluator) (hg : ev'.graph = ev.graph)
    (hs : ∀ u, isTerminalOk (ev.states u) = true → isTerminalOk (ev'.states u) = true)
    (x : String) (h : upstreamsDoneB ev x = true) : upstreamsDoneB ev' x = true := by
  rw [upstreamsDoneB, hg, List.all_eq_true]
  rw [upstreamsDoneB, List.all_eq_true] at h
  exact fun u hu => hs u (h u hu)

/-- decideJob_cases: exhaustive description of the decision predicate -
every leaf of `decideJob` together with the conditions selecting it. -/
theorem decideJob_cases (ev : Evaluator) (j : String) :
    (upstreamsFailedB ev j = true ∧ decideJob ev j = JobState.UpstreamFailed) ∨
    (upstreamsFailedB ev j = false ∧ upstreamsDoneB ev j = false ∧
      decideJob ev j = JobState.Blocked) ∨
    (upstreamsFailedB ev j = false ∧ upstreamsDoneB ev j = true ∧
      ((kindOf ev.graph j = some JobKind.Always ∧
         decideJob ev j = JobState.ReadyToRun true) ∨
       (kindOf ev.graph j = some JobKind.Output ∧ outputPresentB ev j = false ∧
         decideJob ev j = JobState.ReadyToRun true) ∨
       (kindOf ev.graph j = some JobKind.Output ∧ outputPresentB ev j = true ∧
         q ev (gateFuel ev) QK.invalid j = Tri.yes ∧
         decideJob ev j = JobState.ReadyToRun true) ∨
       (kindOf ev.graph j = some JobKind.Output ∧ outputPresentB ev j = true ∧
         q ev (gateFuel ev) QK.invalid j ≠ Tri.yes ∧
         decideJob ev j = JobState.NotNeeded) ∨
       (kindOf ev.graph j = some JobKind.Ephemeral ∧
         q ev (gateFuel ev) QK.invalid j = Tri.yes ∧
         ((downstreamsOf ev.graph j).any fun x => !isFailedState (ev.states x)) = true ∧
         decideJob ev j = JobState.ReadyToRun true) ∨
       (kindOf ev.graph j = some JobKind.Ephemeral ∧
         q ev (gateFuel ev) QK.invalid j = Tri.yes ∧
         ((downstreamsOf ev.graph j).any fun x => !isFailedState (ev.states x)) = false ∧
         decideJob ev j = JobState.NotNeeded) ∨
       (kindOf ev.graph j = some JobKind.Ephemeral ∧
         q ev (gateFuel ev) QK.invalid j = Tri.unknown ∧
         decideJob ev j = JobState.Blocked) ∨
       (kindOf ev.graph j = some JobKind.Ephemeral ∧
         q ev (gateFuel ev) QK.invalid j = Tri.no ∧
         triAny (downstreamsOf ev.graph j)
           (fun x => q ev (gateFuel ev) QK.willRun x) = Tri.yes ∧
         decideJob ev j = JobState.ReadyToRun false) ∨
       (kindOf ev.graph j = some JobKind.Ephemeral ∧
         q ev (gateFuel ev) QK.invalid j = Tri.no ∧
         triAny (downstreamsOf ev.graph j)
           (fun x => q ev (gateFuel ev) QK.willRun x) = Tri.unknown ∧
         decideJob ev j = JobState.Blocked) ∨
       (kindOf ev.graph j = some JobKind.Ephemeral ∧
         q ev (gateFuel ev) QK.invalid j = Tri.no ∧
         triAny (downstreamsOf ev.graph j)
           (fun x => q ev (gateFuel ev) QK.willRun x) = Tri.no ∧
         decideJob ev j = JobState.NotNeeded) ∨
       (kindOf ev.graph j = none ∧ decideJob ev j = JobState.Blocked))) := by
  cases hfail : upstreamsFailedB ev j with
  | true => exact Or.inl ⟨rfl, by simp [decideJob, hfail]⟩
  | false =>
  cases hdone : upstreamsDoneB ev j with
  | false => exact Or.inr (Or.inl ⟨rfl, rfl, by simp [decideJob, hfail, hdone]⟩)
  | true =>
  refine Or.inr (Or.inr ⟨rfl, rfl, ?_⟩)
  cases hk : kindOf ev.graph j with
  | none =>
    refine Or.inr (Or.inr (Or.inr (Or.inr (Or.inr (Or.inr (Or.inr (Or.inr (Or.inr
      (Or.inr ⟨rfl, ?_⟩)))))))))
    simp [decideJob, hfail, hdone, hk]
  | some kk =>
  cases kk with
  | Always => exact Or.inl ⟨rfl, by simp [decideJob, hfail, hdone, hk]⟩
  | Output =>
    cases hpres : outputPresentB ev j with
    | false =>
      exact Or.inr (Or.inl ⟨rfl, rfl, by simp [decideJob, hfail, hdone, hk, hpres]⟩)
    | true =>
    cases hq : q ev (gateFuel ev) QK.invalid j with
    | yes =>
      exact Or.inr (Or.inr (Or.inl ⟨rfl, rfl, rfl,
        by simp [decideJob, hfail, hdone, hk, hpres, hq]⟩))
    | no =>
      refine Or.inr (Or.inr (Or.inr (Or.inl ⟨rfl, rfl, ?_, ?_⟩)))
      · intro hc; cases hc
      · simp [decideJob, hfail, hdone, hk, hpres, hq]
    | unknown =>
      refine Or.inr (Or.inr (Or.inr (Or.inl ⟨rfl, rfl, ?_, ?_⟩)))
      · intro hc; cases hc
      · simp [decideJob, hfail, hdone, hk, hpres, hq]
  | Ephemeral =>
    cases hq : q ev (gateFuel ev) QK.invalid j with
    | yes =>
      cases hsurv : (downstreamsOf ev.graph j).any fun x => !isFailedState (ev.states x) with
      | true =>
        exact Or.inr (Or.inr (Or.inr (Or.inr (Or.inl ⟨rfl, rfl, rfl,
          by simp [decideJob, hfail, hdone, hk, hq, hsurv]⟩))))
      | false =>
        exact Or.inr (Or.inr (Or.inr (Or.inr (Or.inr (Or.inl ⟨rfl, rfl, rfl,
          by simp [decideJob, hfail, hdone, hk, hq, hsurv]⟩)))))
    | unknown =>
      exact Or.inr (Or.inr (Or.inr (Or.inr (Or.inr (Or.inr (Or.inl ⟨rfl, rfl,
        by simp [decideJob, hfail, hdone, hk, hq]⟩))))))
    | no =>
      cases htri : triAny (downstreamsOf ev.graph j)
          fun x => q ev (gateFuel ev) QK.willRun x with
      | yes =>
        exact Or.inr (Or.inr (Or.inr (Or.inr (Or.inr (Or.inr (Or.inr (Or.inl ⟨rfl, rfl, rfl,
          by simp [decideJob, hfail, hdone, hk, hq, htri]⟩)))))))
      | unknown =>
        exact Or.inr (Or.inr (Or.inr (Or.inr (Or.inr (Or.inr (Or.inr (Or.inr (Or.inl
          ⟨rfl, rfl, rfl, by simp [decideJob, hfail, hdone, hk, hq, htri]⟩))))))))
      | no =>
        exact Or.inr (Or.inr (Or.inr (Or.inr (Or.inr (Or.inr (Or.inr (Or.inr (Or.inr (Or.inl
          ⟨rfl, rfl, rfl, by simp [decideJob, hfail, hdone, hk, hq, htri]⟩)))))))))

/-- A predicate on evaluators preserved by every single decision step is
preserved by the whole propagation fixed point. -/
theorem foldl_stepJob_inv (Inv : Evaluator → Prop)
    (hstep : ∀ ev2 j2, Inv ev2 → Inv (stepJob ev2 j2)) (l : List (String × JobKind)) :
    ∀ ev, Inv ev → Inv (l.foldl (fun acc p => stepJob acc p.1) ev) := by
  induction l with
  | nil => intro ev h; exact h
  | cons p t ih =>
    intro ev h
    rw [List.foldl_cons]
    exact ih _ (hstep ev p.1 h)

theorem pass_inv (Inv : Evaluator → Prop)
    (hstep : ∀ ev2 j2, Inv ev2 → Inv (stepJob ev2 j2)) (ev : Evaluator) (h : Inv ev) :
    Inv (pass ev) := by
  rw [pass]
  exact foldl_stepJob_inv Inv hstep _ ev h

theorem passIter_inv (Inv : Evaluator → Prop)
    (hstep : ∀ ev2 j2, Inv ev2 → Inv (stepJob ev2 j2)) (n : Nat) :
    ∀ ev, Inv ev → Inv (passIter n ev) := by
  induction n with
  | zero => intro ev h; exact h
  | succ m ih =>
    intro ev h
    rw [passIter]
    exact ih _ (pass_inv Inv hstep ev h)

theorem recompute_inv (Inv : Evaluator → Prop)
    (hstep : ∀ ev2 j2, Inv ev2 → Inv (stepJob ev2 j2)) (ev : Evaluator) (h : Inv ev) :
    Inv (recompute ev) := by
  rw [recompute]
  exact passIter_inv Inv hstep _ ev h

theorem eventNowRunning_ok (ev ev' : Evaluator) (j : String)
    (h : eventNowRunning ev j = Except.ok ev') :
    ev.started = true ∧ ∃ b, ev.states j = JobState.ReadyToRun b ∧
      ev' = setState ev j (JobState.Running b) := by
  rw [eventNowRunning] at h
  cases hst : ev.started with
  | false => simp [hst] at h
  | true =>
    simp only [hst, Bool.not_true, Bool.false_eq_true, if_false] at h
    cases hsj : ev.states j
    case ReadyToRun b =>
      simp only [hsj] at h
      exact ⟨rfl, b, rfl, (Except.ok.inj h).symm⟩
    all_goals (simp only [hsj] at h; cases h)

theorem eventSuccess_fst (ev : Evaluator) (j v : String) (b : Bool)
    (hst : ev.started = true) (hrun : ev.states j = JobState.Running b) :
    (eventSuccess ev j v).1 =
      recompute (setState { ev with history := recordSuccess ev.graph ev.history j v }
        j JobState.Succeeded) := by
  simp only [eventSuccess, hst, Bool.not_true, Bool.false_eq_true, if_false, hrun]

theorem eventSuccess_snd_not_api (ev : Evaluator) (j v : String) (b : Bool)
    (hst : ev.started = true) (hrun : ev.states j = JobState.Running b) (m : String) :
    (eventSuccess ev j v).2 ≠ some (PPGEvaluatorError.APIError m) := by
  simp only [eventSuccess, hst, Bool.not_true, Bool.false_eq_true, if_false, hrun]
  intro hc
  split at hc
  · simp at hc
  · cases hc

theorem processJob_ok_shape (r : Runner) (ls : LoopState) (j : String) (ls' : LoopState)
    (h : processJob r [] ls j = Except.ok ls') :
    ∃ b, ls.ev.started = true ∧ ls.ev.states j = JobState.ReadyToRun b ∧
      ls'.ev = recompute (setState
          { setState ls.ev j (JobState.Running b) with
              history := recordSuccess ls.ev.graph ls.ev.history j (outputValueFor r j) }
          j JobState.Succeeded) ∧
      ls'.counters = (fun x => if x = j then ls.counters j + 1 else ls.counters x) ∧
      ls'.order = ls.order ++ [j] := by
  rw [processJob] at h
  cases hnr : eventNowRunning ls.ev j with
  | error e =>
    rw [hnr] at h
    simp only [bind, Except.bind] at h
    cases h
  | ok ev1 =>
    obtain ⟨hst, b, hready, hev1⟩ := eventNowRunning_ok ls.ev ev1 j hnr
    rw [hnr] at h
    simp only [bind, Except.bind] at h
    rw [if_neg (by intro hc; cases hc)] at h
    have hst1 : ev1.started = true := by rw [hev1]; exact hst
    have hrun1 : ev1.states j = JobState.Running b := by
      rw [hev1, setState_states, if_pos rfl]
    have hfst := eventSuccess_fst ev1 j (outputValueFor r j) b hst1 hrun1
    have hsnd := eventSuccess_snd_not_api ev1 j (outputValueFor r j) b hst1 hrun1
    rcases hES : eventSuccess ev1 j (outputValueFor r j) with ⟨ev2, err⟩
    rw [hES] at h hfst
    dsimp only at hfst
    rw [hev1] at hfst
    cases err with
    | none =>
      simp only at h
      simp only [pure, Except.pure] at h
      have hls := (Except.ok.inj h).symm
      subst hls
      exact ⟨b, hst, hready, hfst, rfl, rfl⟩
    | some e =>
      cases e with
      | APIError m =>
        exact absurd (by rw [hES]) (hsnd m)
      | EphemeralChangedOutput =>
        simp only at h
        simp only [pure, Except.pure] at h
        have hls := (Except.ok.inj h).symm
        subst hls
        exact ⟨b, hst, hready, hfst, rfl, rfl⟩

theorem foldlM_processJob_inv (r : Runner) (Inv : LoopState → Prop)
    (hstep : ∀ ls j ls', processJob r [] ls j = Except.ok ls' → Inv ls → Inv ls')
    (l : List String) :
    ∀ ls ls', List.foldlM (processJob r []) ls l = Except.ok ls' → Inv ls → Inv ls' := by
  induction l with
  | nil =>
    intro ls ls' h hInv
    rw [List.foldlM_nil] at h
    simp only [pure, Except.pure] at h
    cases h
    exact hInv
  | cons x t ih =>
    intro ls ls' h hInv
    rw [List.foldlM_cons] at h
    simp only [bind, Except.bind] at h
    cases hpj : processJob r [] ls x with
    | error e => rw [hpj] at h; cases h
    | ok ls1 =>
      simp only [hpj] at h
      exact ih ls1 ls' h (hstep ls x ls1 hpj hInv)

theorem processRound_inv (r : Runner) (Inv : LoopState → Prop)
    (hstep : ∀ ls j ls', processJob r [] ls j = Except.ok ls' → Inv ls → Inv ls')
    (ls ls' : LoopState) (h : processRound r [] ls = Except.ok ls') (hInv : Inv ls) :
    Inv ls' := by
  rw [processRound] at h
  exact foldlM_processJob_inv r Inv hstep _ ls ls' h hInv

theorem runLoop_inv (r : Runner) (Inv : LoopState → Prop)
    (hstep : ∀ ls j ls', processJob r [] ls j = Except.ok ls' → Inv ls → Inv ls') :
    ∀ (c : Nat) (ls out : LoopState),
      runLoop r [] c ls = Except.ok out → Inv ls → Inv out := by
  intro c
  induction c with
  | zero =>
    intro ls out h hInv
    rw [runLoop] at h
    by_cases hf : isFinished ls.ev = true
    · rw [if_pos hf] at h
      cases h
      exact hInv
    · rw [if_neg hf] at h
      cases h
  | succ c2 ih =>
    intro ls out h hInv
    rw [runLoop] at h
    by_cases hf : isFinished ls.ev = true
    · rw [if_pos hf] at h
      cases h
      exact hInv
    · rw [if_neg hf] at h
      simp only [bind, Except.bind] at h
      cases hpr : processRound r [] ls with
      | error e => rw [hpr] at h; cases h
      | ok ls1 =>
        simp only [hpr] at h
        by_cases hc : c2 = 0
        · rw [if_pos hc] at h
          cases h
        · rw [if_neg hc] at h
          exact ih ls1 out h (processRound_inv r Inv hstep ls ls1 hpr hInv)

theorem mem_jobs_of_kindOf (g : Graph) (j : String) (kk : JobKind)
    (h : kindOf g j = some kk) : (j, kk) ∈ g.jobs := by
  rw [kindOf] at h
  obtain ⟨a, hfind, ha2⟩ := Option.map_eq_some'.mp h
  have hmem := List.mem_of_find?_eq_some hfind
  have hpred := List.find?_some hfind
  have ha1 : a.1 = j := of_decide_eq_true hpred
  have ha : a = (j, kk) := Prod.ext ha1 ha2
  rw [← ha]
  exact hmem

/-- One decision step preserves the first-run invariant. -/
theorem stepJob_runInvE (r : Runner) (o : List String) (ev : Evaluator) (j : String)
    (h : runInvE r o ev) : runInvE r o (stepJob ev j) := by
  cases hb : isUndecided (ev.states j) with
  | false =>
    rw [stepJob_of_not_undecided ev j hb]
    exact h
  | true =>
    obtain ⟨hg, hstrat, hstart, hF0, hF1, hS, hN⟩ := h
    rw [stepJob_of_undecided ev j hb]
    have hfailF : upstreamsFailedB ev j = false := upstreamsFailedB_eq_false ev hF0 j
    refine ⟨hg, hstrat, hstart, ?_, ?_, ?_, ?_⟩
    · intro x
      rw [setState_states]
      by_cases hx : x = j
      · rw [if_pos hx]
        rcases decideJob_cases ev j with ⟨hfail, hD⟩ | ⟨h1, h2, hD⟩ | ⟨h1, h2, hleaf⟩
        · rw [hfailF] at hfail; cases hfail
        · rw [hD]; rfl
        · rcases hleaf with ⟨h3, hD⟩ | ⟨h3, h4, hD⟩ | ⟨h3, h4, h5, hD⟩ | ⟨h3, h4, h5, hD⟩ |
            ⟨h3, h4, h5, hD⟩ | ⟨h3, h4, h5, hD⟩ | ⟨h3, h4, hD⟩ | ⟨h3, h4, h5, hD⟩ |
            ⟨h3, h4, h5, hD⟩ | ⟨h3, h4, h5, hD⟩ | ⟨h3, hD⟩ <;> rw [hD] <;> rfl
      · rw [if_neg hx]
        exact hF0 x
    · have hmono : ∀ u, isTerminalOk (ev.states u) = true →
          isTerminalOk ((setState ev j (decideJob ev j)).states u) = true := by
        intro u hu
        rw [setState_states]
        by_cases huj : u = j
        · rw [if_pos huj]
          exfalso
          rw [huj] at hu
          cases hs2 : ev.states j <;> rw [hs2] at hb hu <;>
            simp [isUndecided, isTerminalOk] at hb hu
        · rw [if_neg huj]
          exact hu
      intro x hx
      rw [setState_states] at hx
      refine upstreamsDoneB_mono ev (setState ev j (decideJob ev j)) rfl hmono x ?_
      by_cases hxj : x = j
      · rw [if_pos hxj] at hx
        subst hxj
        rcases decideJob_cases ev x with ⟨hfail, hD⟩ | ⟨h1, h2, hD⟩ | ⟨h1, hdone, hleaf⟩
        · rw [hfailF] at hfail; cases hfail
        · rw [hD] at hx; simp [isUndecided] at hx
        · exact hdone
      · rw [if_neg hxj] at hx
        exact hF1 x hx
    · intro x hx
      rw [setState_states] at hx
      by_cases hxj : x = j
      · exfalso
        rw [if_pos hxj] at hx
        rcases decideJob_cases ev j with ⟨hfail, hD⟩ | ⟨h1, h2, hD⟩ | ⟨h1, h2, hleaf⟩
        · rw [hfailF] at hfail; cases hfail
        · rw [hD] at hx; cases hx
        · rcases hleaf with ⟨h3, hD⟩ | ⟨h3, h4, hD⟩ | ⟨h3, h4, h5, hD⟩ | ⟨h3, h4, h5, hD⟩ |
            ⟨h3, h4, h5, hD⟩ | ⟨h3, h4, h5, hD⟩ | ⟨h3, h4, hD⟩ | ⟨h3, h4, h5, hD⟩ |
            ⟨h3, h4, h5, hD⟩ | ⟨h3, h4, h5, hD⟩ | ⟨h3, hD⟩ <;> rw [hD] at hx <;> cases hx
      · rw [if_neg hxj] at hx
        exact hS x hx
    · intro x hx
      rw [setState_states] at hx
      by_cases hxj : x = j
      case neg =>
        rw [if_neg hxj] at hx
        exact hN x hx
      case pos =>
        rw [if_pos hxj] at hx
        subst hxj
        rcases decideJob_cases ev x with ⟨hfail, hD⟩ | ⟨h1, h2, hD⟩ | ⟨h1, hdone, hleaf⟩
        · rw [hfailF] at hfail; cases hfail
        · rw [hD] at hx; cases hx
        · rcases hleaf with ⟨hk, hD⟩ | ⟨hk, hpres, hD⟩ | ⟨hk, hpres, hq, hD⟩ |
            ⟨hk, hpres, hq, hD⟩ | ⟨hk, hq, hsurv, hD⟩ | ⟨hk, hq, hsurv, hD⟩ |
            ⟨hk, hq, hD⟩ | ⟨hk, hq, htri, hD⟩ | ⟨hk, hq, htri, hD⟩ |
            ⟨hk, hq, htri, hD⟩ | ⟨hk, hD⟩
          · rw [hD] at hx; cases hx
          · rw [hD] at hx; cases hx
          · rw [hD] at hx; cases hx
          · -- Output job, artifact present, not invalidated: quiet facts
            have hk' : kindOf r.setupGraph x = some JobKind.Output := by
              rw [← hg]; exact hk
            have hqne : q ev (4 * ev.graph.jobs.length + 2 + 2) QK.invalid x ≠ Tri.yes := by
              rw [← gateFuel_eq]; exact hq
            obtain ⟨hsh, hni, halt⟩ :=
              q_invalid_facts ev x (4 * ev.graph.jobs.length + 2) hdone hqne
            refine ⟨?_, ?_, Or.inr ⟨?_, ?_, ?_, ?_⟩⟩
            · rw [hk']; simp
            · rw [hk']; simp
            · intro u husome
              by_contra hnm
              have hsh2 : shrankB ev x = true := (shrankB_iff ev x).mpr
                ⟨u, husome, by rw [hg]; exact hnm⟩
              rw [hsh] at hsh2
              cases hsh2
            · intro u hu
              cases hgu : hGet ev.history (HKey.edge u x) with
              | some p =>
                show (hGet ev.history (HKey.edge u x)).isSome = true
                rw [hgu]; rfl
              | none =>
                exfalso
                have hni2 : newInputB ev x = true := by
                  rw [newInputB, List.any_eq_true]
                  refine ⟨u, by rw [hg]; exact hu, ?_⟩
                  show (prevOf ev u x).isNone = true
                  rw [prevOf, hgu]
                  rfl
                rw [hni] at hni2
                cases hni2
            · intro u p cc hu hp hcc
              have hp2 : prevOf ev u x = some p := hp
              have hcc2 : currOf ev u = some cc := hcc
              have halt2 := halt u p cc (by rw [hg]; exact hu) hp2 hcc2
              rw [hstrat] at halt2
              exact not_not.mp (of_decide_eq_false halt2)
            · intro h6
              rw [outputPresentB, hstrat] at hpres
              exact hpres
          · rw [hD] at hx; cases hx
          · -- Ephemeral, invalidated, but no surviving consumer: it has no
            -- downstream at all (nothing has failed)
            have hk' : kindOf r.setupGraph x = some JobKind.Ephemeral := by
              rw [← hg]; exact hk
            have hds : downstreamsOf ev.graph x = [] := by
              cases hds2 : downstreamsOf ev.graph x with
              | nil => rfl
              | cons d t =>
                exfalso
                rw [hds2] at hsurv
                simp [hF0 d] at hsurv
            refine ⟨?_, ?_, Or.inl ⟨hk', ?_⟩⟩
            · rw [hk']; simp
            · intro hc
              obtain ⟨d, hd⟩ := ephDemands_exists_downstream r.setupGraph x hc.2
              rw [← hg, hds] at hd
              cases hd
            · rw [← hg]; exact hds
          · rw [hD] at hx; cases hx
          · rw [hD] at hx; cases hx
          · rw [hD] at hx; cases hx
          · -- Ephemeral, not invalidated, no downstream demand: quiet facts
            have hk' : kindOf r.setupGraph x = some JobKind.Ephemeral := by
              rw [← hg]; exact hk
            have hqne : q ev (4 * ev.graph.jobs.length + 2 + 2) QK.invalid x ≠ Tri.yes := by
              rw [← gateFuel_eq, hq]
              intro hc; cases hc
            obtain ⟨hsh, hni, halt⟩ :=
              q_invalid_facts ev x (4 * ev.graph.jobs.length + 2) hdone hqne
            refine ⟨?_, ?_, Or.inr ⟨?_, ?_, ?_, ?_⟩⟩
            · rw [hk']; simp
            · intro hc
              exact demand_ne_no ev hF0 hF1 x (by rw [hg]; exact hc.2) hb (gateFuel ev) htri
            · intro u husome
              by_contra hnm
              have hsh2 : shrankB ev x = true := (shrankB_iff ev x).mpr
                ⟨u, husome, by rw [hg]; exact hnm⟩
              rw [hsh] at hsh2
              cases hsh2
            · intro u hu
              cases hgu : hGet ev.history (HKey.edge u x) with
              | some p =>
                show (hGet ev.history (HKey.edge u x)).isSome = true
                rw [hgu]; rfl
              | none =>
                exfalso
                have hni2 : newInputB ev x = true := by
                  rw [newInputB, List.any_eq_true]
                  refine ⟨u, by rw [hg]; exact hu, ?_⟩
                  show (prevOf ev u x).isNone = true
                  rw [prevOf, hgu]
                  rfl
                rw [hni] at hni2
                cases hni2
            · intro u p cc hu hp hcc
              have hp2 : prevOf ev u x = some p := hp
              have hcc2 : currOf ev u = some cc := hcc
              have halt2 := halt u p cc (by rw [hg]; exact hu) hp2 hcc2
              rw [hstrat] at halt2
              exact not_not.mp (of_decide_eq_false halt2)
            · intro hcO
              rw [hk'] at hcO
              simp at hcO
          · rw [hD] at hx; cases hx

theorem recompute_runInvE (r : Runner) (o : List String) (ev : Evaluator)
    (h : runInvE r o ev) : runInvE r o (recompute ev) :=
  recompute_inv (runInvE r o) (fun ev2 j2 h2 => stepJob_runInvE r o ev2 j2 h2) ev h

/-- Recording a success for a job that was in flight preserves the
first-run invariant, with the job appended to the run order. -/
theorem runInvE_succeed (r : Runner) (o : List String) (ev : Evaluator) (j : String)
    (h : runInvE r o ev) (hdec : isUndecided (ev.states j) = false)
    (hterm : isTerminalOk (ev.states j) = false)
    (ev' : Evaluator)
    (hg' : ev'.graph = ev.graph) (hstrat' : ev'.strat = ev.strat)
    (hstart' : ev'.started = ev.started)
    (hh' : ev'.history = recordSuccess ev.graph ev.history j (outputValueFor r j))
    (hs' : ∀ x, ev'.states x = if x = j then JobState.Succeeded else ev.states x) :
    runInvE r (o ++ [j]) ev' := by
  obtain ⟨hg, hstrat, hstart, hF0, hF1, hS, hN⟩ := h
  have hups : ∀ x, isUndecided (ev.states x) = false →
      ∀ u, u ∈ upstreamsOf r.setupGraph x → u ≠ j := by
    intro x hx u hu huj
    subst huj
    have hdone := hF1 x hx
    rw [upstreamsDoneB, List.all_eq_true] at hdone
    have hter := hdone u (by rw [hg]; exact hu)
    rw [hterm] at hter
    cases hter
  have hnode : ∀ m, hGet ev'.history (HKey.node m)
      = if m = j then some (outputValueFor r j) else hGet ev.history (HKey.node m) := by
    intro m
    rw [hh', hGet_recordSuccess_node]
  have hedgeJ : ∀ u, hGet ev'.history (HKey.edge u j)
      = if u ∈ upstreamsOf ev.graph j then
          some ((if u = j then some (outputValueFor r j)
                 else hGet ev.history (HKey.node u)).getD "")
        else none := by
    intro u
    rw [hh', hGet_recordSuccess_edge_to]
  have hedgeO : ∀ u d, d ≠ j →
      hGet ev'.history (HKey.edge u d) = hGet ev.history (HKey.edge u d) := by
    intro u d hd
    rw [hh']
    exact hGet_recordSuccess_other _ _ _ _ _ (by intro i hc; cases hc)
      (by intro u2 d2 hc; cases hc; exact hd)
  refine ⟨by rw [hg']; exact hg, by rw [hstrat']; exact hstrat,
    by rw [hstart']; exact hstart, ?_, ?_, ?_, ?_⟩
  · intro x
    rw [hs']
    by_cases hx : x = j
    · rw [if_pos hx]; rfl
    · rw [if_neg hx]; exact hF0 x
  · have hmono : ∀ u, isTerminalOk (ev.states u) = true →
        isTerminalOk (ev'.states u) = true := by
      intro u hu
      rw [hs']
      by_cases huj : u = j
      · rw [if_pos huj]; rfl
      · rw [if_neg huj]; exact hu
    intro x hx
    rw [hs'] at hx
    refine upstreamsDoneB_mono ev ev' hg' hmono x ?_
    by_cases hxj : x = j
    · subst hxj
      exact hF1 x hdec
    · rw [if_neg hxj] at hx
      exact hF1 x hx
  · intro x hx
    rw [hs'] at hx
    by_cases hxj : x = j
    · subst hxj
      refine ⟨?_, ?_, ?_, ?_⟩
      · rw [hnode, if_pos rfl]
      · intro u hu
        have hu2 : u ∈ upstreamsOf ev.graph x := by rw [hg]; exact hu
        rw [hedgeJ, if_pos hu2, hnode]
      · intro u husome
        rw [hedgeJ] at husome
        by_cases hu : u ∈ upstreamsOf ev.graph x
        · rw [← hg]; exact hu
        · rw [if_neg hu] at husome
          cases husome
      · exact List.mem_append_right _ (List.mem_singleton.mpr rfl)
    · rw [if_neg hxj] at hx
      obtain ⟨hxn, hxe, hxo, hxord⟩ := hS x hx
      have hxdec : isUndecided (ev.states x) = false := by rw [hx]; rfl
      refine ⟨?_, ?_, ?_, ?_⟩
      · rw [hnode, if_neg hxj]
        exact hxn
      · intro u hu
        have huj : u ≠ j := hups x hxdec u hu
        rw [hedgeO u x hxj, hnode, if_neg huj]
        exact hxe u hu
      · intro u husome
        rw [hedgeO u x hxj] at husome
        exact hxo u husome
      · exact List.mem_append_left _ hxord
  · intro x hx
    rw [hs'] at hx
    by_cases hxj : x = j
    · rw [if_pos hxj] at hx
      cases hx
    · rw [if_neg hxj] at hx
      obtain ⟨hna, hnd, hquiet⟩ := hN x hx
      have hxdec : isUndecided (ev.states x) = false := by rw [hx]; rfl
      refine ⟨hna, hnd, ?_⟩
      rcases hquiet with hq1 | ⟨hq1, hq2, hq3, hq4⟩
      · exact Or.inl hq1
      · refine Or.inr ⟨?_, ?_, ?_, hq4⟩
        · intro u husome
          rw [hedgeO u x hxj] at husome
          exact hq1 u husome
        · intro u hu
          rw [hedgeO u x hxj]
          exact hq2 u hu
        · intro u p cc hu hp hcc
          have huj : u ≠ j := hups x hxdec u hu
          rw [hedgeO u x hxj] at hp
          rw [hnode, if_neg huj] at hcc
          exact hq3 u p cc hu hp hcc

/-- One processed job of a driver round preserves the first-run
invariant. -/
theorem processJob_runInv (r : Runner) (ls ls' : LoopState) (j : String)
    (h : processJob r [] ls j = Except.ok ls') (hInv : runInv r ls) : runInv r ls' := by
  obtain ⟨b, hst, hready, hev, hc, ho⟩ := processJob_ok_shape r ls j ls' h
  rw [runInv] at hInv ⊢
  rw [hev, ho]
  refine recompute_runInvE r _ _ ?_
  refine runInvE_succeed r ls.order ls.ev j hInv (by rw [hready]; rfl)
    (by rw [hready]; rfl) _ rfl rfl rfl rfl ?_
  intro x
  rw [setState_states]
  by_cases hx : x = j
  · rw [if_pos hx, if_pos hx]
  · rw [if_neg hx, if_neg hx]
    show (setState ls.ev j (JobState.Running b)).states x = ls.ev.states x
    rw [setState_states, if_neg hx]

/-- The state right after startup satisfies the first-run invariant. -/
theorem runInvE_init (r : Runner) :
    runInvE r [] { mkEvaluator r.setupGraph (testingStrategy r.alreadyDone) r.history
                   with started := true } := by
  refine ⟨rfl, rfl, rfl, ?_, ?_, ?_, ?_⟩
  · intro x; rfl
  · intro x hx
    simp [mkEvaluator, isUndecided] at hx
  · intro x hx
    simp [mkEvaluator] at hx
  · intro x hx
    simp [mkEvaluator] at hx

/-- Unfolding a successful `runnerRun`: the startup succeeded, the loop
succeeded, the order was topological, and the returned runner harvests
the final loop state. -/
theorem runnerRun_ok_elim (r : Runner) (r1 : Runner) (ev1 : Evaluator)
    (h : runnerRun r [] = Except.ok (r1, ev1)) :
    ∃ ls : LoopState,
      runLoop r [] r.allowedNesting
        { ev := recompute { mkEvaluator r.setupGraph (testingStrategy r.alreadyDone) r.history
                            with started := true }
          counters := r.runCounters, order := [] } = Except.ok ls ∧
      ev1 = ls.ev ∧
      r1 = { r with history := newHistory ls.ev
                    runCounters := ls.counters
                    alreadyDone := r.alreadyDone ++ ls.order
                    runOrder := ls.order } := by
  rw [runnerRun] at h
  have hsu : eventStartup (mkEvaluator r.setupGraph (testingStrategy r.alreadyDone) r.history)
      = Except.ok (recompute { mkEvaluator r.setupGraph (testingStrategy r.alreadyDone)
          r.history with started := true }) := rfl
  simp only [hsu, bind, Except.bind] at h
  cases hloop : runLoop r [] r.allowedNesting
      { ev := recompute { mkEvaluator r.setupGraph (testingStrategy r.alreadyDone) r.history
                          with started := true }
        counters := r.runCounters, order := [] } with
  | error e =>
    rw [hloop] at h
    cases h
  | ok ls =>
    rw [hloop] at h
    simp only at h
    by_cases htop : verifyOrderWasTopological r.setupGraph ls.order = true
    · rw [if_pos htop] at h
      simp only [pure, Except.pure] at h
      have h2 := Except.ok.inj h
      refine ⟨ls, rfl, ?_, ?_⟩
      · exact (congrArg Prod.snd h2).symm
      · exact (congrArg Prod.fst h2).symm
    · rw [if_neg htop] at h
      cases h

/-- A complete successful driver run establishes the good-history facts
about the harvested runner. -/
theorem runnerRun_goodHistory (r r1 : Runner) (ev1 : Evaluator)
    (h : runnerRun r [] = Except.ok (r1, ev1)) : goodHistory r1 := by
  obtain ⟨ls, hloop, hev1, hr1⟩ := runnerRun_ok_elim r r1 ev1 h
  have h0 : runInv r { ev := recompute { mkEvaluator r.setupGraph
                               (testingStrategy r.alreadyDone) r.history with started := true }
                       counters := r.runCounters
                       order := [] } := by
    rw [runInv]
    exact recompute_runInvE r [] _ (runInvE_init r)
  have hInvLs : runInv r ls :=
    runLoop_inv r (runInv r) (fun ls2 j2 ls2' hpj hI => processJob_runInv r ls2 ls2' j2 hpj hI)
      r.allowedNesting _ ls hloop h0
  rw [runInv] at hInvLs
  obtain ⟨hg, hstrat, hstart, hF0, hF1, hS, hN⟩ := hInvLs
  have hfin : isFinished ls.ev = true := runLoop_ok_finished r [] r.allowedNesting _ ls hloop
  subst hr1
  intro jj kk hkk
  have hkk' : kindOf r.setupGraph jj = some kk := hkk
  have hmem : (jj, kk) ∈ r.setupGraph.jobs := mem_jobs_of_kindOf _ _ _ hkk'
  have hterm : isTerminal (ls.ev.states jj) = true := by
    rw [isFinished, List.all_eq_true] at hfin
    exact hfin (jj, kk) (by rw [hg]; exact hmem)
  cases hsj : ls.ev.states jj with
  | Undetermined => rw [hsj] at hterm; cases hterm
  | Blocked => rw [hsj] at hterm; cases hterm
  | ReadyToRun b => rw [hsj] at hterm; cases hterm
  | Running b => rw [hsj] at hterm; cases hterm
  | Failed =>
    have := hF0 jj
    rw [hsj] at this
    cases this
  | UpstreamFailed =>
    have := hF0 jj
    rw [hsj] at this
    cases this
  | Succeeded =>
    obtain ⟨hn, he, ho2, hord⟩ := hS jj hsj
    have hsucc : succFactH { r with history := newHistory ls.ev
                                    runCounters := ls.counters
                                    alreadyDone := r.alreadyDone ++ ls.order
                                    runOrder := ls.order } jj := by
      refine ⟨hn, he, ho2, ?_⟩
      exact List.elem_iff.mpr (List.mem_append_right _ hord)
    exact ⟨Or.inl hsucc, fun _ => hsucc, fun _ _ => hsucc⟩
  | NotNeeded =>
    obtain ⟨hna, hnd, hquiet⟩ := hN jj hsj
    have hq : quietFactH { r with history := newHistory ls.ev
                                  runCounters := ls.counters
                                  alreadyDone := r.alreadyDone ++ ls.order
                                  runOrder := ls.order } jj := by
      rcases hquiet with hq1 | ⟨hq1, hq2, hq3, hq4⟩
      · exact Or.inl hq1
      · refine Or.inr ⟨hq1, hq2, hq3, ?_⟩
        intro hO
        have hc := hq4 hO
        exact List.elem_iff.mpr (List.mem_append_left _ (List.elem_iff.mp hc))
    refine ⟨Or.inr hq, ?_, ?_⟩
    · intro hkA
      subst hkA
      exact absurd hkk' hna
    · intro hkE hdem
      subst hkE
      exact absurd ⟨hkk', hdem⟩ hnd

/-- A job that ran to success in the first run has clean recorded
inputs. -/
theorem cleanInputs_of_succ (r1 : Runner) (d : String) (h : succFactH r1 d) :
    cleanInputs r1 d := by
  obtain ⟨hn, he, ho, _⟩ := h
  refine ⟨ho, ?_, ?_⟩
  · intro u hu
    rw [he u hu]
    rfl
  · intro u p cc hu hp hcc
    have h2 := he u hu
    rw [hp, hcc] at h2
    exact Option.some.inj h2

/-- After a complete successful run, every registered job either has
clean recorded inputs or is a consumerless ephemeral. -/
theorem good_cases (r1 : Runner) (hgh : goodHistory r1) (d : String) (kk : JobKind)
    (hk : kindOf r1.setupGraph d = some kk) :
    cleanInputs r1 d ∨ (kindOf r1.setupGraph d = some JobKind.Ephemeral ∧
      downstreamsOf r1.setupGraph d = []) := by
  rcases (hgh d kk hk).1 with hsucc | hquiet
  · exact Or.inl (cleanInputs_of_succ r1 d hsucc)
  · rcases hquiet with ⟨hke, hds⟩ | ⟨h1, h2, h3, _⟩
    · exact Or.inr ⟨hke, hds⟩
    · exact Or.inl ⟨h1, h2, h3⟩

/-- After a complete successful run, the artifact of every registered
Output job is present (its id is in the already-done set). -/
theorem good_output_done (r1 : Runner) (hgh : goodHistory r1) (d : String)
    (hk : kindOf r1.setupGraph d = some JobKind.Output) :
    r1.alreadyDone.contains d = true := by
  rcases (hgh d JobKind.Output hk).1 with hsucc | hquiet
  · exact hsucc.2.2.2
  · rcases hquiet with ⟨hke, _⟩ | ⟨_, _, _, h4⟩
    · rw [hk] at hke
      simp at hke
    · exact h4 hk

/-- Over the harvested history, a job with clean recorded inputs is
never invalidated. -/
theorem q_invalid_ne_yes_of_clean (r1 : Runner) (ev : Evaluator)
    (hg : ev.graph = r1.setupGraph) (hstrat : ev.strat = testingStrategy r1.alreadyDone)
    (hh : ∀ k, hGet ev.history k = hGet r1.history k)
    (d : String) (hc : cleanInputs r1 d) : ∀ f, q ev f QK.invalid d ≠ Tri.yes := by
  apply q_invalid_ne_yes
  · cases hs : shrankB ev d with
    | false => rfl
    | true =>
      exfalso
      obtain ⟨u, hsome, hnm⟩ := (shrankB_iff ev d).mp hs
      rw [hh] at hsome
      exact hnm (by rw [hg]; exact hc.1 u hsome)
  · cases hni : newInputB ev d with
    | false => rfl
    | true =>
      exfalso
      rw [newInputB, List.any_eq_true] at hni
      obtain ⟨u, hu, hnone⟩ := hni
      have hu' : u ∈ upstreamsOf r1.setupGraph d := by rw [← hg]; exact hu
      obtain ⟨p, hp⟩ := Option.isSome_iff_exists.mp (hc.2.1 u hu')
      have hprev : prevOf ev u d = some p := by
        show hGet ev.history (HKey.edge u d) = some p
        rw [hh]
        exact hp
      rw [hprev] at hnone
      cases hnone
  · intro u p cc hu hp hcc
    have hu' : u ∈ upstreamsOf r1.setupGraph d := by rw [← hg]; exact hu
    have hp' : hGet r1.history (HKey.edge u d) = some p := by rw [← hh]; exact hp
    have hcc' : hGet r1.history (HKey.node u) = some cc := by rw [← hh]; exact hcc
    have hpc := hc.2.2 u p cc hu' hp' hcc'
    rw [hstrat]
    subst hpc
    show decide ¬ p = p = false
    simp

/-- Over the harvested history, only Always jobs and ephemerals demanded
by an Always job can be predicted to run. -/
theorem willRun_yes_reruns (r1 : Runner) (ev : Evaluator)
    (hg : ev.graph = r1.setupGraph) (hstrat : ev.strat = testingStrategy r1.alreadyDone)
    (hh : ∀ k, hGet ev.history k = hGet r1.history k)
    (hgh : goodHistory r1)
    (hG5 : ∀ x, ¬ rerunsEveryTime r1.setupGraph x →
      (ev.states x = JobState.Undetermined ∨ ev.states x = JobState.Blocked ∨
       ev.states x = JobState.NotNeeded)) :
    ∀ f d, q ev f QK.willRun d = Tri.yes → rerunsEveryTime r1.setupGraph d := by
  intro f
  induction f with
  | zero => intro d hyes; simp [q] at hyes
  | succ f2 ih =>
    intro d hyes
    by_cases hrr : rerunsEveryTime r1.setupGraph d
    · exact hrr
    exfalso
    rcases hG5 d hrr with hsd | hsd | hsd
    ·
      simp only [q, hsd] at hyes
      by_cases hfail : upstreamsFailedB ev d = true
      · rw [if_pos hfail] at hyes
        cases hyes
      rw [if_neg hfail, hg] at hyes
      cases hk : kindOf r1.setupGraph d with
      | none =>
        simp only [hk] at hyes
        cases hyes
      | some kk =>
        cases kk with
        | Always => exact hrr (Or.inl hk)
        | Output =>
          simp only [hk] at hyes
          have hpres : outputPresentB ev d = true := by
            have hdone := good_output_done r1 hgh d hk
            show ev.strat.outputAlreadyPresent d = true
            rw [hstrat]
            exact hdone
          rw [hpres] at hyes
          simp only [Bool.not_true, Bool.false_eq_true, if_false] at hyes
          rcases good_cases r1 hgh d JobKind.Output hk with hclean | ⟨hke, h2e⟩
          · exact q_invalid_ne_yes_of_clean r1 ev hg hstrat hh d hclean f2 hyes
          · rw [hk] at hke
            simp at hke
        | Ephemeral =>
          simp only [hk] at hyes
          rcases good_cases r1 hgh d JobKind.Ephemeral hk with hclean | ⟨h1e, hds⟩
          · cases hq : q ev f2 QK.invalid d with
            | yes => exact q_invalid_ne_yes_of_clean r1 ev hg hstrat hh d hclean f2 hq
            | unknown =>
              simp only [hq] at hyes
              cases hyes
            | no =>
              simp only [hq] at hyes
              obtain ⟨d2, hd2, hyes3⟩ := (triAny_eq_yes_iff _ _).mp hyes
              have hrr2 := ih d2 hyes3
              apply hrr
              refine Or.inr ⟨hk, ?_⟩
              rcases hrr2 with hkA | ⟨hkE, hdem⟩
              · exact EphDemandsAlways.direct d d2 hd2 hkA
              · exact EphDemandsAlways.chain d d2 hd2 hkE hdem
          · rw [hds] at hyes
            cases hq : q ev f2 QK.invalid d <;> simp only [hq] at hyes
            · simp at hyes
            · simp [triAny] at hyes
            · cases hyes
    ·
      simp only [q, hsd] at hyes
      by_cases hfail : upstreamsFailedB ev d = true
      · rw [if_pos hfail] at hyes
        cases hyes
      rw [if_neg hfail, hg] at hyes
      cases hk : kindOf r1.setupGraph d with
      | none =>
        simp only [hk] at hyes
        cases hyes
      | some kk =>
        cases kk with
        | Always => exact hrr (Or.inl hk)
        | Output =>
          simp only [hk] at hyes
          have hpres : outputPresentB ev d = true := by
            have hdone := good_output_done r1 hgh d hk
            show ev.strat.outputAlreadyPresent d = true
            rw [hstrat]
            exact hdone
          rw [hpres] at hyes
          simp only [Bool.not_true, Bool.false_eq_true, if_false] at hyes
          rcases good_cases r1 hgh d JobKind.Output hk with hclean | ⟨hke, h2e⟩
          · exact q_invalid_ne_yes_of_clean r1 ev hg hstrat hh d hclean f2 hyes
          · rw [hk] at hke
            simp at hke
        | Ephemeral =>
          simp only [hk] at hyes
          rcases good_cases r1 hgh d JobKind.Ephemeral hk with hclean | ⟨h1e, hds⟩
          · cases hq : q ev f2 QK.invalid d with
            | yes => exact q_invalid_ne_yes_of_clean r1 ev hg hstrat hh d hclean f2 hq
            | unknown =>
              simp only [hq] at hyes
              cases hyes
            | no =>
              simp only [hq] at hyes
              obtain ⟨d2, hd2, hyes3⟩ := (triAny_eq_yes_iff _ _).mp hyes
              have hrr2 := ih d2 hyes3
              apply hrr
              refine Or.inr ⟨hk, ?_⟩
              rcases hrr2 with hkA | ⟨hkE, hdem⟩
              · exact EphDemandsAlways.direct d d2 hd2 hkA
              · exact EphDemandsAlways.chain d d2 hd2 hkE hdem
          · rw [hds] at hyes
            cases hq : q ev f2 QK.invalid d <;> simp only [hq] at hyes
            · simp at hyes
            · simp [triAny] at hyes
            · cases hyes
    · simp [q, hsd] at hyes

/-- Over the harvested history, the decision predicate never schedules a
job that is not an Always job or a demanded ephemeral. -/
theorem decideJob_not_ready (r1 : Runner) (ev : Evaluator)
    (hg : ev.graph = r1.setupGraph) (hstrat : ev.strat = testingStrategy r1.alreadyDone)
    (hh : ∀ k, hGet ev.history k = hGet r1.history k)
    (hgh : goodHistory r1)
    (hG5 : ∀ x, ¬ rerunsEveryTime r1.setupGraph x →
      (ev.states x = JobState.Undetermined ∨ ev.states x = JobState.Blocked ∨
       ev.states x = JobState.NotNeeded))
    (x : String) (hrr : ¬ rerunsEveryTime r1.setupGraph x) (b : Bool) :
    decideJob ev x ≠ JobState.ReadyToRun b := by
  intro hready
  rcases decideJob_cases ev x with ⟨hfail, hD⟩ | ⟨h1, h2, hD⟩ | ⟨h1, hdone, hleaf⟩
  · rw [hD] at hready; cases hready
  · rw [hD] at hready; cases hready
  · rcases hleaf with ⟨hk, hD⟩ | ⟨hk, hpres, hD⟩ | ⟨hk, hpres, hq, hD⟩ |
      ⟨hk, hpres, hq, hD⟩ | ⟨hk, hq, hsurv, hD⟩ | ⟨hk, hq, hsurv, hD⟩ |
      ⟨hk, hq, hD⟩ | ⟨hk, hq, htri, hD⟩ | ⟨hk, hq, htri, hD⟩ |
      ⟨hk, hq, htri, hD⟩ | ⟨hk, hD⟩
    · exact hrr (Or.inl (by rw [← hg]; exact hk))
    · have hk' : kindOf r1.setupGraph x = some JobKind.Output := by rw [← hg]; exact hk
      have hpres2 : r1.alreadyDone.contains x = false := by
        show (testingStrategy r1.alreadyDone).outputAlreadyPresent x = false
        rw [← hstrat]
        exact hpres
      rw [good_output_done r1 hgh x hk'] at hpres2
      cases hpres2
    · have hk' : kindOf r1.setupGraph x = some JobKind.Output := by rw [← hg]; exact hk
      rcases good_cases r1 hgh x JobKind.Output hk' with hclean | ⟨hke, _⟩
      · exact q_invalid_ne_yes_of_clean r1 ev hg hstrat hh x hclean (gateFuel ev) hq
      · rw [hk'] at hke
        simp at hke
    · rw [hD] at hready; cases hready
    · have hk' : kindOf r1.setupGraph x = some JobKind.Ephemeral := by rw [← hg]; exact hk
      rcases good_cases r1 hgh x JobKind.Ephemeral hk' with hclean | ⟨_, hds⟩
      · exact q_invalid_ne_yes_of_clean r1 ev hg hstrat hh x hclean (gateFuel ev) hq
      · rw [hg, hds] at hsurv
        simp at hsurv
    · rw [hD] at hready; cases hready
    · rw [hD] at hready; cases hready
    · have hk' : kindOf r1.setupGraph x = some JobKind.Ephemeral := by rw [← hg]; exact hk
      obtain ⟨d2, hd2, hyes2⟩ := (triAny_eq_yes_iff _ _).mp htri
      have hrr2 := willRun_yes_reruns r1 ev hg hstrat hh hgh hG5 (gateFuel ev) d2 hyes2
      apply hrr
      refine Or.inr ⟨hk', ?_⟩
      have hd2' : d2 ∈ downstreamsOf r1.setupGraph x := by rw [← hg]; exact hd2
      rcases hrr2 with hkA | ⟨hkE, hdem⟩
      · exact EphDemandsAlways.direct x d2 hd2' hkA
      · exact EphDemandsAlways.chain x d2 hd2' hkE hdem
    · rw [hD] at hready; cases hready
    · rw [hD] at hready; cases hready
    · rw [hD] at hready; cases hready

/-- One decision step preserves the second-run invariant. -/
theorem stepJob_roundTwoInvE (r1 : Runner) (hgh : goodHistory r1) (c : String → Nat)
    (ev : Evaluator) (j : String) (h : roundTwoInvE r1 c ev) :
    roundTwoInvE r1 c (stepJob ev j) := by
  cases hb : isUndecided (ev.states j) with
  | false =>
    rw [stepJob_of_not_undecided ev j hb]
    exact h
  | true =>
    obtain ⟨hg, hstrat, hstart, hF0, hh, hG5, hG6, hG7⟩ := h
    rw [stepJob_of_undecided ev j hb]
    have hfailF : upstreamsFailedB ev j = false := upstreamsFailedB_eq_false ev hF0 j
    refine ⟨hg, hstrat, hstart, ?_, ?_, ?_, ?_, ?_⟩
    · intro x
      rw [setState_states]
      by_cases hx : x = j
      · rw [if_pos hx]
        rcases decideJob_cases ev j with ⟨hfail, hD⟩ | ⟨h1, h2, hD⟩ | ⟨h1, h2, hleaf⟩
        · rw [hfailF] at hfail; cases hfail
        · rw [hD]; rfl
        · rcases hleaf with ⟨h3, hD⟩ | ⟨h3, h4, hD⟩ | ⟨h3, h4, h5, hD⟩ | ⟨h3, h4, h5, hD⟩ |
            ⟨h3, h4, h5, hD⟩ | ⟨h3, h4, h5, hD⟩ | ⟨h3, h4, hD⟩ | ⟨h3, h4, h5, hD⟩ |
            ⟨h3, h4, h5, hD⟩ | ⟨h3, h4, h5, hD⟩ | ⟨h3, hD⟩ <;> rw [hD] <;> rfl
      · rw [if_neg hx]
        exact hF0 x
    · intro k
      show hGet ev.history k = hGet r1.history k
      exact hh k
    · intro x hrr
      rw [setState_states]
      by_cases hx : x = j
      · rw [if_pos hx]
        subst hx
        have hnr := decideJob_not_ready r1 ev hg hstrat hh hgh hG5 x hrr
        rcases decideJob_cases ev x with ⟨hfail, hD⟩ | ⟨h1, h2, hD⟩ | ⟨h1, h2, hleaf⟩
        · rw [hfailF] at hfail; cases hfail
        · rw [hD]; exact Or.inr (Or.inl rfl)
        · rcases hleaf with ⟨h3, hD⟩ | ⟨h3, h4, hD⟩ | ⟨h3, h4, h5, hD⟩ | ⟨h3, h4, h5, hD⟩ |
            ⟨h3, h4, h5, hD⟩ | ⟨h3, h4, h5, hD⟩ | ⟨h3, h4, hD⟩ | ⟨h3, h4, h5, hD⟩ |
            ⟨h3, h4, h5, hD⟩ | ⟨h3, h4, h5, hD⟩ | ⟨h3, hD⟩
          · exact absurd hD (hnr true)
          · exact absurd hD (hnr true)
          · exact absurd hD (hnr true)
          · rw [hD]; exact Or.inr (Or.inr rfl)
          · exact absurd hD (hnr true)
          · rw [hD]; exact Or.inr (Or.inr rfl)
          · rw [hD]; exact Or.inr (Or.inl rfl)
          · exact absurd hD (hnr false)
          · rw [hD]; exact Or.inr (Or.inl rfl)
          · rw [hD]; exact Or.inr (Or.inr rfl)
          · rw [hD]; exact Or.inr (Or.inl rfl)
      · rw [if_neg hx]
        exact hG5 x hrr
    · intro x hkA
      rw [setState_states]
      by_cases hx : x = j
      · rw [if_pos hx]
        subst hx
        rcases decideJob_cases ev x with ⟨hfail, hD⟩ | ⟨h1, h2, hD⟩ | ⟨h1, h2, hleaf⟩
        · rw [hfailF] at hfail; cases hfail
        · rw [hD]; intro hc; cases hc
        · have hkA' : kindOf ev.graph x = some JobKind.Always := by
            rw [hg]; exact hkA
          rcases hleaf with ⟨hk, hD⟩ | ⟨hk, h4, hD⟩ | ⟨hk, h4, h5, hD⟩ | ⟨hk, h4, h5, hD⟩ |
            ⟨hk, h4, h5, hD⟩ | ⟨hk, h4, h5, hD⟩ | ⟨hk, h4, hD⟩ | ⟨hk, h4, h5, hD⟩ |
            ⟨hk, h4, h5, hD⟩ | ⟨hk, h4, h5, hD⟩ | ⟨hk, hD⟩
          · rw [hD]
            intro hc
            cases hc
          all_goals (rw [hkA'] at hk; simp at hk)
      · rw [if_neg hx]
        exact hG6 x hkA
    · intro x
      rw [setState_states]
      by_cases hx : x = j
      · rw [if_pos hx]
        subst hx
        have h7 := hG7 x
        have hpre : (match ev.states x with
            | JobState.Running _ => 1 | JobState.Succeeded => 1 | _ => 0) = 0 := by
          cases hs2 : ev.states x <;> try rfl
          all_goals (rw [hs2] at hb; simp [isUndecided] at hb)
        rw [h7, hpre]
        have hD0 : (match decideJob ev x with
            | JobState.Running _ => 1 | JobState.Succeeded => 1 | _ => 0) = 0 := by
          rcases decideJob_cases ev x with ⟨hfail, hD⟩ | ⟨h1, h2, hD⟩ | ⟨h1, h2, hleaf⟩
          · rw [hfailF] at hfail; cases hfail
          · rw [hD]
          · rcases hleaf with ⟨h3, hD⟩ | ⟨h3, h4, hD⟩ | ⟨h3, h4, h5, hD⟩ | ⟨h3, h4, h5, hD⟩ |
              ⟨h3, h4, h5, hD⟩ | ⟨h3, h4, h5, hD⟩ | ⟨h3, h4, hD⟩ | ⟨h3, h4, h5, hD⟩ |
              ⟨h3, h4, h5, hD⟩ | ⟨h3, h4, h5, hD⟩ | ⟨h3, hD⟩ <;> rw [hD]
        rw [hD0]
      · rw [if_neg hx]
        exact hG7 x

/-- Recording a success for a scheduled job preserves the second-run
invariant: the job reruns by right, and rewrites its history entries to
exactly the values the first run left. -/
theorem roundTwoInvE_succeed (r1 : Runner) (hgh : goodHistory r1) (c : String → Nat)
    (ev : Evaluator) (j : String) (b : Bool)
    (h : roundTwoInvE r1 c ev) (hready : ev.states j = JobState.ReadyToRun b)
    (ev' : Evaluator) (c' : String → Nat)
    (hg' : ev'.graph = ev.graph) (hstrat' : ev'.strat = ev.strat)
    (hstart' : ev'.started = ev.started)
    (hh' : ev'.history = recordSuccess ev.graph ev.history j (outputValueFor r1 j))
    (hs' : ∀ x, ev'.states x = if x = j then JobState.Succeeded else ev.states x)
    (hc' : ∀ x, c' x = if x = j then c j + 1 else c x) :
    roundTwoInvE r1 c' ev' := by
  obtain ⟨hg, hstrat, hstart, hF0, hh, hG5, hG6, hG7⟩ := h
  have hrrj : rerunsEveryTime r1.setupGraph j := by
    by_contra hc2
    rcases hG5 j hc2 with hs | hs | hs <;> rw [hready] at hs <;> cases hs
  have hsf : succFactH r1 j := by
    rcases hrrj with hkA | ⟨hkE, hdem⟩
    · exact (hgh j JobKind.Always hkA).2.1 rfl
    · exact (hgh j JobKind.Ephemeral hkE).2.2 rfl hdem
  obtain ⟨hsn, hse, hso, _⟩ := hsf
  refine ⟨by rw [hg']; exact hg, by rw [hstrat']; exact hstrat,
    by rw [hstart']; exact hstart, ?_, ?_, ?_, ?_, ?_⟩
  · intro x
    rw [hs']
    by_cases hx : x = j
    · rw [if_pos hx]; rfl
    · rw [if_neg hx]; exact hF0 x
  · intro k
    rw [hh']
    cases k with
    | node m =>
      rw [hGet_recordSuccess_node]
      by_cases hm : m = j
      · rw [if_pos hm, hm, hsn]
      · rw [if_neg hm]
        exact hh (HKey.node m)
    | edge u d =>
      by_cases hd : d = j
      · rw [hd, hGet_recordSuccess_edge_to]
        by_cases hu : u ∈ upstreamsOf ev.graph j
        · rw [if_pos hu]
          have hu2 : u ∈ upstreamsOf r1.setupGraph j := by rw [← hg]; exact hu
          rw [hse u hu2]
          by_cases huj : u = j
          · rw [if_pos huj, huj, hsn]
          · rw [if_neg huj, hh (HKey.node u)]
        · rw [if_neg hu]
          cases hgr : hGet r1.history (HKey.edge u j) with
          | none => rfl
          | some w =>
            exfalso
            have hmem := hso u (by rw [hgr]; rfl)
            exact hu (by rw [hg]; exact hmem)
      · rw [hGet_recordSuccess_other _ _ _ _ _ (by intro i hc3; cases hc3)
          (by intro u2 d2 hc3; cases hc3; exact hd)]
        exact hh (HKey.edge u d)
  · intro x hrr
    rw [hs']
    by_cases hx : x = j
    · subst hx
      exact absurd hrrj hrr
    · rw [if_neg hx]
      exact hG5 x hrr
  · intro x hkA
    rw [hs']
    by_cases hx : x = j
    · rw [if_pos hx]
      intro hc3
      cases hc3
    · rw [if_neg hx]
      exact hG6 x hkA
  · intro x
    rw [hs', hc']
    by_cases hx : x = j
    · rw [if_pos hx, if_pos hx]
      subst hx
      have h7 := hG7 x
      simp only [hready] at h7
      show c x + 1 = r1.runCounters x + 1
      omega
    · rw [if_neg hx, if_neg hx]
      exact hG7 x

/-- One processed job of a second-run round preserves the second-run
invariant. -/
theorem processJob_roundTwoInv (r1 : Runner) (hgh : goodHistory r1) (ls ls' : LoopState)
    (j : String) (h : processJob r1 [] ls j = Except.ok ls')
    (hInv : roundTwoInv r1 ls) : roundTwoInv r1 ls' := by
  obtain ⟨b, hst, hready, hev, hc, ho⟩ := processJob_ok_shape r1 ls j ls' h
  rw [roundTwoInv] at hInv ⊢
  rw [hev, hc]
  refine recompute_inv (roundTwoInvE r1 _)
    (fun e2 j2 h2 => stepJob_roundTwoInvE r1 hgh _ e2 j2 h2) _ ?_
  refine roundTwoInvE_succeed r1 hgh ls.counters ls.ev j b hInv hready _ _
    rfl rfl rfl rfl ?_ ?_
  · intro x
    rw [setState_states]
    by_cases hx : x = j
    · rw [if_pos hx, if_pos hx]
    · rw [if_neg hx, if_neg hx]
      show (setState ls.ev j (JobState.Running b)).states x = ls.ev.states x
      rw [setState_states, if_neg hx]
  · intro x
    rfl

/-- The state right after a second-run startup satisfies the second-run
invariant. -/
theorem roundTwoInvE_init (r1 : Runner) :
    roundTwoInvE r1 r1.runCounters
      { mkEvaluator r1.setupGraph (testingStrategy r1.alreadyDone) r1.history
        with started := true } := by
  refine ⟨rfl, rfl, rfl, ?_, ?_, ?_, ?_, ?_⟩
  · intro x; rfl
  · intro k; rfl
  · intro x hrr
    exact Or.inl rfl
  · intro x hkA hc
    simp [mkEvaluator] at hc
  · intro x
    simp [mkEvaluator]

/-- A successful second run carries the second-run invariant to a
finished final state. -/
theorem runnerRun_roundTwo (r1 r2 : Runner) (ev2 : Evaluator)
    (hgh : goodHistory r1) (h : runnerRun r1 [] = Except.ok (r2, ev2)) :
    ∃ ls : LoopState, roundTwoInvE r1 ls.counters ls.ev ∧ isFinished ls.ev = true ∧
      r2.runCounters = ls.counters := by
  obtain ⟨ls, hloop, hev2, hr2⟩ := runnerRun_ok_elim r1 r2 ev2 h
  have h0 : roundTwoInv r1 { ev := recompute { mkEvaluator r1.setupGraph
                                     (testingStrategy r1.alreadyDone) r1.history
                                     with started := true }
                             counters := r1.runCounters
                             order := [] } := by
    rw [roundTwoInv]
    exact recompute_inv (roundTwoInvE r1 r1.runCounters)
      (fun e2 j2 h2 => stepJob_roundTwoInvE r1 hgh _ e2 j2 h2) _ (roundTwoInvE_init r1)
  have hInv : roundTwoInv r1 ls :=
    runLoop_inv r1 (roundTwoInv r1)
      (fun ls2 j2 ls2' hpj hI => processJob_roundTwoInv r1 hgh ls2 ls2' j2 hpj hI)
      r1.allowedNesting _ ls hloop h0
  rw [roundTwoInv] at hInv
  refine ⟨ls, hInv, runLoop_ok_finished r1 [] r1.allowedNesting _ ls hloop, ?_⟩
  rw [hr2]

set_option maxHeartbeats 16000000 in
/-- C1 (amended): round-trip stability as the evaluator actually
behaves.  After a complete successful driver run, an immediately
repeated run with the same graph, same strategy state and the harvested
history runs every Output job zero additional times and every Always
job exactly one additional time; an Ephemeral job runs zero additional
times provided no Always job is reachable from it through a chain of
ephemeral downstreams.  (An ephemeral with such a chain is re-demanded
and reruns on every invocation - the unconditional "every Ephemeral
zero additional times" sentence of the spec is refuted by
`c1_counterexample`.) -/
theorem c1_round_trip_amended (r r1 r2 : Runner) (ev1 ev2 : Evaluator)
    (h1 : runnerRun r [] = Except.ok (r1, ev1))
    (h2 : runnerRun r1 [] = Except.ok (r2, ev2)) (j : String) :
    (kindOf r1.setupGraph j = some JobKind.Output →
      r2.runCounters j = r1.runCounters j) ∧
    (kindOf r1.setupGraph j = some JobKind.Always →
      r2.runCounters j = r1.runCounters j + 1) ∧
    (kindOf r1.setupGraph j = some JobKind.Ephemeral →
      ¬ EphDemandsAlways r1.setupGraph j →
      r2.runCounters j = r1.runCounters j) := by
  have hgh := runnerRun_goodHistory r r1 ev1 h1
  obtain ⟨ls, hInv, hfin, hrc⟩ := runnerRun_roundTwo r1 r2 ev2 hgh h2
  obtain ⟨hg, hstrat, hstart, hF0, hh, hG5, hG6, hG7⟩ := hInv
  rw [hrc]
  refine ⟨?_, ?_, ?_⟩
  · intro hk
    have hrr : ¬ rerunsEveryTime r1.setupGraph j := by
      intro hc
      rcases hc with hkA | ⟨hkE, h2e⟩
      · rw [hk] at hkA; simp at hkA
      · rw [hk] at hkE; simp at hkE
    rcases hG5 j hrr with hs | hs | hs
    all_goals (have h7 := hG7 j; simp only [hs] at h7; omega)
  · intro hk
    have hmem := mem_jobs_of_kindOf r1.setupGraph j JobKind.Always hk
    have hterm : isTerminal (ls.ev.states j) = true := by
      rw [isFinished, List.all_eq_true] at hfin
      exact hfin (j, JobKind.Always) (by rw [hg]; exact hmem)
    have h7 := hG7 j
    cases hsj : ls.ev.states j with
    | Succeeded => simp only [hsj] at h7; omega
    | NotNeeded => exact absurd hsj (hG6 j hk)
    | Failed =>
      have hcf := hF0 j
      rw [hsj] at hcf
      cases hcf
    | UpstreamFailed =>
      have hcf := hF0 j
      rw [hsj] at hcf
      cases hcf
    | Undetermined => rw [hsj] at hterm; cases hterm
    | Blocked => rw [hsj] at hterm; cases hterm
    | ReadyToRun b => rw [hsj] at hterm; cases hterm
    | Running b => rw [hsj] at hterm; cases hterm
  · intro hk hdem
    have hrr : ¬ rerunsEveryTime r1.setupGraph j := by
      intro hc
      rcases hc with hkA | ⟨h1e, hdem2⟩
      · rw [hk] at hkA; simp at hkA
      · exact hdem hdem2
    rcases hG5 j hrr with hs | hs | hs
    all_goals (have h7 := hG7 j; simp only [hs] at h7; omega)

set_option maxHeartbeats 16000000 in
/-- C1 (amended, witness): the round-trip theorem applied to the
concrete one-Output-job graph: the second run leaves the Output job's
counter unchanged. -/
theorem c1_round_trip_amended_witness :
    ∃ r1 ev1 r2 ev2,
      runnerRun (runnerNew c1WitnessGraph) [] = Except.ok (r1, ev1) ∧
      runnerRun r1 [] = Except.ok (r2, ev2) ∧
      kindOf r1.setupGraph "A" = some JobKind.Output ∧
      r2.runCounters "A" = r1.runCounters "A" := by
  refine ⟨_, _, _, _, rfl, rfl, ?_, ?_⟩
  · rfl
  · exact (c1_round_trip_amended (runnerNew c1WitnessGraph) _ _ _ _ rfl rfl "A").1 rfl

/-! Helpers for the ephemeral-gating claim: where Ready states can come
from, and when the evaluator is inert. -/

theorem foldl_stepJob_ready_source (j : String) (b : Bool) (l : List (String × JobKind)) :
    ∀ ev : Evaluator,
      (l.foldl (fun a p => stepJob a p.1) ev).states j = JobState.ReadyToRun b →
      ev.states j = JobState.ReadyToRun b ∨
      ∃ ev2 : Evaluator, ev2.graph = ev.graph ∧ ev2.strat = ev.strat ∧
        isUndecided (ev2.states j) = true ∧ decideJob ev2 j = JobState.ReadyToRun b := by
  induction l with
  | nil => intro ev h; exact Or.inl h
  | cons p t ih =>
    intro ev h
    rw [List.foldl_cons] at h
    rcases ih (stepJob ev p.1) h with h2 | ⟨ev2, hg2, hs2, hu2, hd2⟩
    · by_cases hpj : p.1 = j
      · cases hu : isUndecided (ev.states p.1) with
        | false =>
          rw [stepJob_of_not_undecided ev p.1 hu] at h2
          exact Or.inl h2
        | true =>
          subst hpj
          rw [stepJob_states_self ev p.1 hu] at h2
          exact Or.inr ⟨ev, rfl, rfl, hu, h2⟩
      · rw [stepJob_states_ne ev p.1 j (fun hc => hpj hc.symm)] at h2
        exact Or.inl h2
    · exact Or.inr ⟨ev2, by rw [hg2, stepJob_graph], by rw [hs2, stepJob_strat], hu2, hd2⟩

theorem passIter_ready_source (j : String) (b : Bool) (n : Nat) :
    ∀ ev : Evaluator, (passIter n ev).states j = JobState.ReadyToRun b →
      ev.states j = JobState.ReadyToRun b ∨
      ∃ ev2 : Evaluator, ev2.graph = ev.graph ∧ ev2.strat = ev.strat ∧
        isUndecided (ev2.states j) = true ∧ decideJob ev2 j = JobState.ReadyToRun b := by
  induction n with
  | zero => intro ev h; exact Or.inl h
  | succ m ih =>
    intro ev h
    rw [passIter] at h
    rcases ih (pass ev) h with h2 | ⟨ev2, hg2, hs2, hu2, hd2⟩
    · rw [pass] at h2
      exact foldl_stepJob_ready_source j b _ ev h2
    · exact Or.inr ⟨ev2, by rw [hg2, pass_graph], by rw [hs2, pass_strat], hu2, hd2⟩

theorem recompute_ready_source (j : String) (b : Bool) (ev : Evaluator)
    (h : (recompute ev).states j = JobState.ReadyToRun b) :
    ev.states j = JobState.ReadyToRun b ∨
    ∃ ev2 : Evaluator, ev2.graph = ev.graph ∧ ev2.strat = ev.strat ∧
      isUndecided (ev2.states j) = true ∧ decideJob ev2 j = JobState.ReadyToRun b := by
  rw [recompute] at h
  exact passIter_ready_source j b _ ev h

/-- applyEvent_ready_source: a job is in ReadyToRun after an event only
if it already was, or the decision predicate put it there (at an
intermediate state with the same graph and strategy). -/
theorem applyEvent_ready_source (ev : Evaluator) (e : EvAction) (j : String) (b : Bool)
    (h : (applyEvent ev e).states j = JobState.ReadyToRun b) :
    ev.states j = JobState.ReadyToRun b ∨
    ∃ ev2 : Evaluator, ev2.graph = ev.graph ∧ ev2.strat = ev.strat ∧
      isUndecided (ev2.states j) = true ∧ decideJob ev2 j = JobState.ReadyToRun b := by
  cases e with
  | startup =>
    cases hs : ev.started with
    | true =>
      rw [show applyEvent ev EvAction.startup = ev from by
        simp [applyEvent, eventStartup, hs]] at h
      exact Or.inl h
    | false =>
      rw [show applyEvent ev EvAction.startup = recompute { ev with started := true } from by
        simp [applyEvent, eventStartup, hs]] at h
      rcases recompute_ready_source j b _ h with h2 | ⟨ev2, hg2, hs2, hu2, hd2⟩
      · exact Or.inl h2
      · exact Or.inr ⟨ev2, hg2, hs2, hu2, hd2⟩
  | nowRunning i =>
    cases hs : ev.started with
    | false =>
      simp only [applyEvent, eventNowRunning, hs, Bool.not_false, if_true] at h
      exact Or.inl h
    | true =>
      cases hsi : ev.states i
      case ReadyToRun b2 =>
        simp only [applyEvent, eventNowRunning, hs, Bool.not_true, Bool.false_eq_true,
          if_false, hsi] at h
        rw [setState_states] at h
        by_cases hji : j = i
        · rw [if_pos hji] at h
          cases h
        · rw [if_neg hji] at h
          exact Or.inl h
      all_goals
        (simp only [applyEvent, eventNowRunning, hs, Bool.not_true, Bool.false_eq_true,
          if_false, hsi] at h
         exact Or.inl h)
  | success i v =>
    cases hs : ev.started with
    | false =>
      simp only [applyEvent, eventSuccess, hs, Bool.not_false, if_true] at h
      exact Or.inl h
    | true =>
      cases hsi : ev.states i
      case Running b2 =>
        rw [show applyEvent ev (EvAction.success i v) = (eventSuccess ev i v).1 from rfl,
          eventSuccess_fst ev i v b2 hs hsi] at h
        rcases recompute_ready_source j b _ h with h2 | ⟨ev2, hg2, hs2, hu2, hd2⟩
        · rw [setState_states] at h2
          by_cases hji : j = i
          · rw [if_pos hji] at h2
            cases h2
          · rw [if_neg hji] at h2
            exact Or.inl h2
        · exact Or.inr ⟨ev2, hg2, hs2, hu2, hd2⟩
      all_goals
        (simp only [applyEvent, eventSuccess, hs, Bool.not_true, Bool.false_eq_true,
          if_false, hsi] at h
         exact Or.inl h)
  | failure i =>
    cases hs : ev.started with
    | false =>
      simp only [applyEvent, eventFailure, hs, Bool.not_false, if_true] at h
      exact Or.inl h
    | true =>
      cases hsi : ev.states i
      case Running b2 =>
        simp only [applyEvent, eventFailure, hs, Bool.not_true, Bool.false_eq_true,
          if_false, hsi] at h
        rcases recompute_ready_source j b _ h with h2 | ⟨ev2, hg2, hs2, hu2, hd2⟩
        · have h3 : failStates ev i j = JobState.ReadyToRun b := h2
          rw [failStates] at h3
          split at h3
          · cases h3
          · split at h3
            · cases h3
            · exact Or.inl h3
        · exact Or.inr ⟨ev2, hg2, hs2, hu2, hd2⟩
      all_goals
        (simp only [applyEvent, eventFailure, hs, Bool.not_true, Bool.false_eq_true,
          if_false, hsi] at h
         exact Or.inl h)

/-- applyEvent_stuck: once started, an evaluator offering nothing
(no Ready, no Running state anywhere) rejects every further event. -/
theorem applyEvent_stuck (ev : Evaluator) (hst : ev.started = true)
    (hnr : ∀ x, (∀ b, ev.states x ≠ JobState.ReadyToRun b) ∧
      (∀ b, ev.states x ≠ JobState.Running b)) (e : EvAction) :
    applyEvent ev e = ev := by
  cases e with
  | startup => simp [applyEvent, eventStartup, hst]
  | nowRunning i =>
    cases hsi : ev.states i
    case ReadyToRun b => exact absurd hsi ((hnr i).1 b)
    all_goals simp [applyEvent, eventNowRunning, hst, hsi]
  | success i v =>
    cases hsi : ev.states i
    case Running b => exact absurd hsi ((hnr i).2 b)
    all_goals simp [applyEvent, eventSuccess, hst, hsi]
  | failure i =>
    cases hsi : ev.states i
    case Running b => exact absurd hsi ((hnr i).2 b)
    all_goals simp [applyEvent, eventFailure, hst, hsi]

theorem applyEvents_stuck (ev : Evaluator) (hst : ev.started = true)
    (hnr : ∀ x, (∀ b, ev.states x ≠ JobState.ReadyToRun b) ∧
      (∀ b, ev.states x ≠ JobState.Running b)) :
    ∀ l : List EvAction, applyEvents ev l = ev := by
  intro l
  induction l with
  | nil => rfl
  | cons e t ih =>
    show applyEvents (applyEvent ev e) t = ev
    rw [applyEvent_stuck ev hst hnr e]
    exact ih

theorem applyEvent_not_started (ev : Evaluator) (hst : ev.started = false)
    (e : EvAction) (hne : e ≠ EvAction.startup) : applyEvent ev e = ev := by
  cases e with
  | startup => exact absurd rfl hne
  | nowRunning i => simp [applyEvent, eventNowRunning, hst]
  | success i v => simp [applyEvent, eventSuccess, hst]
  | failure i => simp [applyEvent, eventFailure, hst]

theorem foldl_stepJob_states_not_mem (x : String) (l : List (String × JobKind))
    (hx : ∀ p, p ∈ l → p.1 ≠ x) :
    ∀ ev : Evaluator, (l.foldl (fun a p => stepJob a p.1) ev).states x = ev.states x := by
  induction l with
  | nil => intro ev; rfl
  | cons p t ih =>
    intro ev
    rw [List.foldl_cons, ih (fun p2 hp2 => hx p2 (List.mem_cons_of_mem _ hp2)),
      stepJob_states_ne ev p.1 x (Ne.symm (hx p (List.mem_cons_self _ _)))]

theorem passIter_states_not_mem (x : String) (n : Nat) :
    ∀ ev : Evaluator, (∀ p, p ∈ ev.graph.jobs → p.1 ≠ x) →
      (passIter n ev).states x = ev.states x := by
  induction n with
  | zero => intro ev _; rfl
  | succ m ih =>
    intro ev hx
    rw [passIter, ih (pass ev) (by rw [pass_graph]; exact hx), pass,
      foldl_stepJob_states_not_mem x _ hx]

theorem recompute_states_unreg (ev : Evaluator) (x : String)
    (hx : ∀ p, p ∈ ev.graph.jobs → p.1 ≠ x) :
    (recompute ev).states x = ev.states x := by
  rw [recompute]
  exact passIter_states_not_mem x _ ev hx

set_option maxHeartbeats 16000000 in
/-- presentOutput_cases: every event sequence on the
present-and-clean-Output scenario either does nothing (the evaluator
was never started) or settles at the post-startup state - which offers
no job at all, so all further events are rejected. -/
theorem presentOutput_cases : ∀ evs : List EvAction,
    applyEvents presentOutputEv evs = presentOutputEv ∨
    applyEvents presentOutputEv evs = applyEvent presentOutputEv EvAction.startup := by
  have hS1st : (applyEvent presentOutputEv EvAction.startup).started = true := by decide
  have hS1nr : ∀ x, (∀ b, (applyEvent presentOutputEv EvAction.startup).states x
        ≠ JobState.ReadyToRun b) ∧
      (∀ b, (applyEvent presentOutputEv EvAction.startup).states x
        ≠ JobState.Running b) := by
    intro x
    by_cases hTB : x = "TB"
    · subst hTB
      exact ⟨by decide, by decide⟩
    by_cases hC : x = "C"
    · subst hC
      exact ⟨by decide, by decide⟩
    have hst : (applyEvent presentOutputEv EvAction.startup).states x
        = JobState.Undetermined := by
      show (recompute { presentOutputEv with started := true }).states x = _
      rw [recompute_states_unreg]
      · rfl
      · intro p hp hpx
        have hp2 : p ∈ presentOutputGraph.jobs := hp
        rcases List.mem_cons.mp hp2 with h3 | h3
        · rw [h3] at hpx
          exact hTB hpx.symm
        · rcases List.mem_cons.mp h3 with h4 | h4
          · rw [h4] at hpx
            exact hC hpx.symm
          · cases h4
    refine ⟨?_, ?_⟩ <;> intro b hc <;> rw [hst] at hc <;> cases hc
  intro evs
  induction evs with
  | nil => exact Or.inl rfl
  | cons e t ih =>
    show applyEvents (applyEvent presentOutputEv e) t = presentOutputEv ∨
      applyEvents (applyEvent presentOutputEv e) t
        = applyEvent presentOutputEv EvAction.startup
    cases e with
    | startup => exact Or.inr (applyEvents_stuck _ hS1st hS1nr t)
    | nowRunning i =>
      rw [applyEvent_not_started presentOutputEv rfl _ (by intro hc; cases hc)]
      exact ih
    | success i v =>
      rw [applyEvent_not_started presentOutputEv rfl _ (by intro hc; cases hc)]
      exact ih
    | failure i =>
      rw [applyEvent_not_started presentOutputEv rfl _ (by intro hc; cases hc)]
      exact ih

set_option maxHeartbeats 16000000 in
/-- C4: an ephemeral with no downstream that is eligible to run never
enters ReadyToRun and never runs.  (1) The decision predicate moves an
ephemeral to ReadyToRun only on demand: either it is invalidated and
has a surviving (non-failed) downstream consumer, or the backward
eligibility fixed point settles some downstream to "will run"; no
reachable surviving downstream demand means no transition to Ready.
(2) The decision predicate is the only source of Ready states: under
every event, a job found Ready was Ready before or was put there by the
decision predicate at an intermediate state with the same graph and
strategy.  (3) An ephemeral with no downstream at all is inert under
every event sequence: its state stays among Undetermined, Blocked,
NotNeeded and UpstreamFailed.  (4) So is an ephemeral whose only
downstream is an Output job that is not eligible to run because its
artifact is already present and its records are clean.  (5) In
particular after startup on the graph holding one lone Ephemeral the
evaluator is already finished and offers nothing. -/
theorem c4_terminal_ephemeral :
    (∀ (ev : Evaluator) (j : String) (b : Bool),
      kindOf ev.graph j = some JobKind.Ephemeral →
      decideJob ev j = JobState.ReadyToRun b →
      (q ev (gateFuel ev) QK.invalid j = Tri.yes ∧
        ((downstreamsOf ev.graph j).any fun d => !isFailedState (ev.states d)) = true) ∨
      triAny (downstreamsOf ev.graph j)
        (fun d => q ev (gateFuel ev) QK.willRun d) = Tri.yes) ∧
    (∀ (ev : Evaluator) (e : EvAction) (j : String) (b : Bool),
      (applyEvent ev e).states j = JobState.ReadyToRun b →
      ev.states j = JobState.ReadyToRun b ∨
      ∃ ev2 : Evaluator, ev2.graph = ev.graph ∧ ev2.strat = ev.strat ∧
        isUndecided (ev2.states j) = true ∧ decideJob ev2 j = JobState.ReadyToRun b) ∧
    (∀ (g : Graph) (s : Strategy) (h0 : History) (j : String) (evs : List EvAction),
      kindOf g j = some JobKind.Ephemeral → downstreamsOf g j = [] →
      ephemeralInertState ((applyEvents (mkEvaluator g s h0) evs).states j) = true ∧
      (∀ b, (applyEvents (mkEvaluator g s h0) evs).states j ≠ JobState.ReadyToRun b) ∧
      (∀ b, (applyEvents (mkEvaluator g s h0) evs).states j ≠ JobState.Running b)) ∧
    (∀ evs : List EvAction,
      ephemeralInertState ((applyEvents presentOutputEv evs).states "TB") = true ∧
      (∀ b, (applyEvents presentOutputEv evs).states "TB" ≠ JobState.ReadyToRun b) ∧
      (∀ b, (applyEvents presentOutputEv evs).states "TB" ≠ JobState.Running b)) ∧
    singletonEphemeralStartup.map isFinished = some true ∧
    singletonEphemeralStartup.map queryReadyToRun = some [] := by
  refine ⟨?_, ?_, ?_, ?_, by decide, by decide⟩
  · intro ev j b hk hready
    rcases decideJob_cases ev j with ⟨hfail, hD⟩ | ⟨h1, h2, hD⟩ | ⟨h1, h2, hleaf⟩
    · rw [hD] at hready; cases hready
    · rw [hD] at hready; cases hready
    · rcases hleaf with ⟨hk2, hD⟩ | ⟨hk2, h4, hD⟩ | ⟨hk2, h4, h5, hD⟩ | ⟨hk2, h4, h5, hD⟩ |
        ⟨hk2, h4, h5, hD⟩ | ⟨hk2, h4, h5, hD⟩ | ⟨hk2, h4, hD⟩ | ⟨hk2, h4, h5, hD⟩ |
        ⟨hk2, h4, h5, hD⟩ | ⟨hk2, h4, h5, hD⟩ | ⟨hk2, hD⟩
      · rw [hk] at hk2; simp at hk2
      · rw [hk] at hk2; simp at hk2
      · rw [hk] at hk2; simp at hk2
      · rw [hD] at hready; cases hready
      · exact Or.inl ⟨h4, h5⟩
      · rw [hD] at hready; cases hready
      · rw [hD] at hready; cases hready
      · exact Or.inr h5
      · rw [hD] at hready; cases hready
      · rw [hD] at hready; cases hready
      · rw [hk] at hk2; simp at hk2
  · intro ev e j b h
    exact applyEvent_ready_source ev e j b h
  · intro g s h0 j evs hk hd
    have hfacts := applyEvents_pres ephemeralInertState g j
      (fun _ => rfl) (fun _ => rfl) rfl
      (fun ev2 hg2 _ _ _ => by
        rw [← hg2] at hk hd
        exact decideJob_eph_no_down ev2 j hk hd)
      evs (mkEvaluator g s h0) rfl rfl
    refine ⟨hfacts.2, ?_, ?_⟩ <;> intro b hc <;> rw [hc] at hfacts <;>
      simp [ephemeralInertState] at hfacts
  · intro evs
    rcases presentOutput_cases evs with he | he <;> rw [he]
    · exact ⟨by decide, by decide, by decide⟩
    · exact ⟨by decide, by decide, by decide⟩

set_option maxHeartbeats 1600000 in
/-- C4, witness: the gating facts at concrete inputs - the lone
ephemeral of the singleton graph is inert after startup, and the
ephemeral feeding the already-present clean Output is inert after
startup. -/
theorem c4_terminal_ephemeral_witness :
    ephemeralInertState ((applyEvents (mkEvaluator singletonEphemeralGraph
      (testingStrategy []) []) [EvAction.startup]).states "TA") = true ∧
    ephemeralInertState ((applyEvents presentOutputEv
      [EvAction.startup]).states "TB") = true :=
  ⟨(c4_terminal_ephemeral.2.2.1 singletonEphemeralGraph (testingStrategy []) [] "TA"
      [EvAction.startup] (by decide) (by decide)).1,
    (c4_terminal_ephemeral.2.2.2.1 [EvAction.startup]).1⟩

end PPG2
